import Mathlib

/-!
Shallow embedding of `src/day17/src/main.rs` (AdventOfCode2023, day 17):
a Dijkstra-style search over states `(coords, direction, run_length)` on a
grid of digit costs, with run-length constraints `min_run_length` and
`max_run_length`.

Numeric conventions: the Rust code stores costs in `u32` and uses
`u32::MAX` as the "no best cost yet" sentinel.  Following the repository
spec's numeric semantics (overflow is a non-goal; costs are non-negative
integers), costs are modelled as `ℕ` and an absent best-cost entry plays
the role of the `u32::MAX` sentinel: a freshly touched state is always
relaxed, exactly as in the source for all inputs that do not overflow
`u32`.  Rust panics (`unreachable!()`, index out of bounds, and the
`unwrap()` on the best-cost lookup) are modelled as explicit outcomes of
the search, since a Rust panic aborts instead of returning a value.
-/

set_option maxHeartbeats 1000000

namespace Day17

/-- Mirrors `type Row = Vec<u32>;`. -/
abbrev Row := List ℕ

/-- Mirrors `type Grid = Vec<Row>;`. -/
abbrev Grid := List Row

/-- Mirrors `type Coords = (usize, usize);`. -/
abbrev Coords := ℕ × ℕ

/-- Mirrors `c.to_digit(10)` from `fn row`: a decimal digit parses to its
value, anything else is a parse failure (`ParseValError`). -/
def charDigit (c : Char) : Option ℕ :=
  if c.isDigit then some (c.toNat - 48) else none

/-- Mirrors `fn row(inp: &str) -> Result<Row>`: parse every character as a
decimal digit; `none` models the `ParseValError` failure. -/
def row (inp : String) : Option Row :=
  inp.toList.mapM charDigit

/-- Mirrors `fn grid(inp: impl BufRead) -> Result<Grid>`: parse each input
line with `row`; note that the source performs no shape validation of any
kind (no rectangularity check, no emptiness check). -/
def grid (ls : List String) : Option Grid :=
  ls.mapM row

/-- Mirrors `enum Direction`. -/
inductive Direction
  | North
  | South
  | East
  | West
deriving DecidableEq, Repr

/-- Mirrors `Direction::turn_left`. -/
def Direction.turn_left : Direction → Direction
  | .North => .West
  | .South => .East
  | .East => .North
  | .West => .South

/-- Mirrors `Direction::turn_right`. -/
def Direction.turn_right : Direction → Direction
  | .North => .East
  | .South => .West
  | .East => .South
  | .West => .North

/-- Helper (the reverse direction; the source never offers it as a
candidate, and the spec calls it `opposite`). -/
def Direction.opposite : Direction → Direction
  | .North => .South
  | .South => .North
  | .East => .West
  | .West => .East

/-- Position of a `Direction` in the Rust declaration order, which is the
order used by the derived `Ord` instance on `State`. -/
def Direction.idx : Direction → ℕ
  | .North => 0
  | .South => 1
  | .East => 2
  | .West => 3

/-- Mirrors `fn try_move(grid: &Grid, (r, c): &Coords, direction: &Direction)
-> Option<Coords>`.  `grid[0]` is modelled with `headD` (the source would
panic on an empty grid; `heat_loss` below models that panic before any
call to `try_move` can happen). -/
def try_move (g : Grid) (rc : Coords) (d : Direction) : Option Coords :=
  match d with
  | .North => if 0 < rc.1 then some (rc.1 - 1, rc.2) else none
  | .South => if rc.1 < g.length - 1 then some (rc.1 + 1, rc.2) else none
  | .East => if rc.2 < (g.headD []).length - 1 then some (rc.1, rc.2 + 1) else none
  | .West => if 0 < rc.2 then some (rc.1, rc.2 - 1) else none

/-- Mirrors `struct State { coords, direction, run_length }`. -/
structure State where
  coords : Coords
  direction : Direction
  run_length : ℕ
deriving DecidableEq, Repr

/-- The synthetic start state pushed by `heat_loss` (lines 92–96 of the
source): coordinates `(0, 0)`, direction `East`, run length `0`. -/
def startState : State :=
  ⟨(0, 0), .East, 0⟩

/-- Cell cost `grid[r][c]` (in-bounds on every path the search explores;
out-of-bounds access, which would panic in Rust, defaults to `0` and is
never exercised by the theorems below, which assume well-formed grids). -/
def cellCost (g : Grid) (rc : Coords) : ℕ :=
  (g.getD rc.1 []).getD rc.2 0

/-- The lexicographic order on `(cost, state)` pairs used by the Rust
binary heap of `Reverse((u32, State))` entries: `pop` returns the least
entry under the derived `Ord` on `(u32, State)` (cost first, then coords,
direction, run length). -/
def entryLE (a b : ℕ × State) : Bool :=
  if a.1 ≠ b.1 then decide (a.1 < b.1)
  else if a.2.coords.1 ≠ b.2.coords.1 then decide (a.2.coords.1 < b.2.coords.1)
  else if a.2.coords.2 ≠ b.2.coords.2 then decide (a.2.coords.2 < b.2.coords.2)
  else if a.2.direction.idx ≠ b.2.direction.idx then
    decide (a.2.direction.idx < b.2.direction.idx)
  else decide (a.2.run_length ≤ b.2.run_length)

/-- Least element of `e :: l` under `entryLE`: the entry that
`BinaryHeap::pop` removes. -/
def minEntry : ℕ × State → List (ℕ × State) → ℕ × State
  | e, [] => e
  | e, x :: xs => minEntry (if entryLE e x then e else x) xs

/-- Association-list model of the `HashMap<State, u32>` best-cost table:
lookup of a key (`best.get(&state)`). -/
def lookup : List (State × ℕ) → State → Option ℕ
  | [], _ => none
  | (k, v) :: rest, s => if k = s then some v else lookup rest s

/-- Insert-or-update of the best-cost table (`best.insert` /
`*best_for_state = heat_loss`). -/
def setBest : List (State × ℕ) → State → ℕ → List (State × ℕ)
  | [], s, v => [(s, v)]
  | (k, w) :: rest, s, v =>
      if k = s then (k, v) :: rest else (k, w) :: setBest rest s v

/-- Mirrors the candidate generation of lines 108–115: the two turns when
`run_length == 0 || run_length >= min_run_length`, and going straight when
`run_length < max_run_length`, in source push order. -/
def candidates (mn mx : ℕ) (s : State) : List (Direction × ℕ) :=
  (if s.run_length = 0 ∨ mn ≤ s.run_length then
    [(s.direction.turn_left, 1), (s.direction.turn_right, 1)]
  else []) ++
  (if s.run_length < mx then [(s.direction, s.run_length + 1)] else [])

/-- The relaxation test of lines 129–130: an absent entry plays the
`u32::MAX` sentinel of `or_insert`, so a freshly touched state is always
pushed, and a known state only when the tentative cost is strictly
smaller. -/
def shouldPush (best : List (State × ℕ)) (s' : State) (c' : ℕ) : Bool :=
  match lookup best s' with
  | none => true
  | some b => decide (c' < b)

/-- One iteration of the `for (direction, run_length) in possible` loop
(lines 117–134): move, compute the tentative cost, and relax the reached
state if the tentative cost beats the recorded best. -/
def relax (g : Grid) (cost : ℕ) (st : State)
    (hb : List (ℕ × State) × List (State × ℕ)) (cand : Direction × ℕ) :
    List (ℕ × State) × List (State × ℕ) :=
  match try_move g st.coords cand.1 with
  | none => hb
  | some coords =>
    if shouldPush hb.2 ⟨coords, cand.1, cand.2⟩ (cost + cellCost g coords) then
      (hb.1 ++ [(cost + cellCost g coords, (⟨coords, cand.1, cand.2⟩ : State))],
        setBest hb.2 ⟨coords, cand.1, cand.2⟩ (cost + cellCost g coords))
    else hb

/-- The whole successor-relaxation phase of one popped state. -/
def expand (g : Grid) (mn mx : ℕ) (cost : ℕ) (st : State)
    (heap : List (ℕ × State)) (best : List (State × ℕ)) :
    List (ℕ × State) × List (State × ℕ) :=
  (candidates mn mx st).foldl (relax g cost st) (heap, best)

/-- Outcome of the search.  `found c` is the normal return of `heat_loss`;
`panicked` models a Rust panic that is not the best-table `unwrap`
(the `unreachable!()` on frontier exhaustion, or the `grid[0]` /
`grid.len() - 1` evaluation on a degenerate grid); `unwrapPanic` models a
failure of `best.get(&state).unwrap()` on line 104. -/
inductive SearchResult
  | found (c : ℕ)
  | panicked
  | unwrapPanic
deriving DecidableEq, Repr

/-- The goal predicate of line 101: bottom-right coordinates and
`run_length >= min_run_length`. -/
def isGoal (g : Grid) (mn : ℕ) (s : State) : Prop :=
  s.coords = (g.length - 1, (g.headD []).length - 1) ∧ mn ≤ s.run_length

instance (g : Grid) (mn : ℕ) (s : State) : Decidable (isGoal g mn s) := by
  unfold isGoal; infer_instance

/-- One step of the movement-constraint automaton, read off from the
candidate generation plus `try_move`: from state `s`, direction `d` may be
taken iff it occurs in `candidates mn mx s` and the move stays on the
grid; the successor records the new coordinates, `d`, and the emitted run
length.  `candidates_mem_iff_moveState` below proves this function is
exactly the candidate generator of the source. -/
def moveState (g : Grid) (mn mx : ℕ) (s : State) (d : Direction) : Option State :=
  let rOpt : Option ℕ :=
    if d = s.direction then
      if s.run_length < mx then some (s.run_length + 1) else none
    else if d = s.direction.turn_left ∨ d = s.direction.turn_right then
      if s.run_length = 0 ∨ mn ≤ s.run_length then some 1 else none
    else none
  match rOpt, try_move g s.coords d with
  | some r, some coords => some ⟨coords, d, r⟩
  | _, _ => none

/-- Run a list of moves through the automaton, starting from state `s`:
returns the final state and the sum of the costs of the cells entered, or
`none` if some move is illegal.  This is the "automaton-legal path"
semantics the claims quantify over. -/
def walkPath (g : Grid) (mn mx : ℕ) : State → List Direction → Option (State × ℕ)
  | s, [] => some (s, 0)
  | s, d :: ds =>
    (moveState g mn mx s d).bind fun s' =>
      (walkPath g mn mx s' ds).map fun tc => (tc.1, cellCost g s'.coords + tc.2)

/-- Costs of the automaton-legal paths from the synthetic start state to a
goal state (bottom-right coordinates, final run length at least `mn`). -/
def goalCosts (g : Grid) (mn mx : ℕ) : Set ℕ :=
  {c | ∃ π t, walkPath g mn mx startState π = some (t, c) ∧ isGoal g mn t}

/-- Specification-side walk for the refinement claim: movement over bare
coordinates with no direction or run-length constraint, only the grid
boundary, costing the cells entered ("plain Dijkstra shortest-path
cost ignoring direction"). -/
def specWalk (g : Grid) : Coords → List Direction → Option (Coords × ℕ)
  | p, [] => some (p, 0)
  | p, d :: ds =>
    (try_move g p d).bind fun q =>
      (specWalk g q ds).map fun tc => (tc.1, cellCost g q + tc.2)

/-- Specification-side cost set: costs of unconstrained walks from `(0,0)`
to the bottom-right cell. -/
def specShortestCosts (g : Grid) : Set ℕ :=
  {c | ∃ π, specWalk g (0, 0) π = some ((g.length - 1, (g.headD []).length - 1), c)}

/-- A loop state of the search: the frontier heap and the best-cost table. -/
abbrev LoopState := List (ℕ × State) × List (State × ℕ)

/-- `PopOk heap e rest`: `e` is an entry of `heap` of minimal cost and
`rest` is `heap` with that entry removed.  Any minimal-cost entry is
allowed, which models a binary heap with arbitrary tie-breaking among
equal-cost entries. -/
def PopOk (heap : List (ℕ × State)) (e : ℕ × State) (rest : List (ℕ × State)) : Prop :=
  e ∈ heap ∧ (∀ x ∈ heap, e.1 ≤ x.1) ∧ rest = heap.erase e

/-- One non-terminating iteration of the `while let` loop of `heat_loss`:
pop a minimal entry that is not a goal; either discard it as stale
(line 104–105) or relax its successors (lines 108–134). -/
inductive Step (g : Grid) (mn mx : ℕ) : LoopState → LoopState → Prop
  | stale {heap best e rest b} :
      PopOk heap e rest → ¬ isGoal g mn e.2 →
      lookup best e.2 = some b → b < e.1 →
      Step g mn mx (heap, best) (rest, best)
  | relax {heap best e rest b} :
      PopOk heap e rest → ¬ isGoal g mn e.2 →
      lookup best e.2 = some b → ¬ b < e.1 →
      Step g mn mx (heap, best) (expand g mn mx e.1 e.2 rest best)

/-- The loop iterations that end the search: return on popping a goal
state (lines 101–103), the `unreachable!()` panic on an exhausted
frontier (line 137), or the panic of the `unwrap` on line 104. -/
inductive Ends (g : Grid) (mn mx : ℕ) : LoopState → SearchResult → Prop
  | emptyHeap {best} : Ends g mn mx ([], best) .panicked
  | goal {heap best e rest} :
      PopOk heap e rest → isGoal g mn e.2 →
      Ends g mn mx (heap, best) (.found e.1)
  | unwrapFail {heap best e rest} :
      PopOk heap e rest → ¬ isGoal g mn e.2 →
      lookup best e.2 = none →
      Ends g mn mx (heap, best) .unwrapPanic

/-- A complete run of the search loop from a loop state to a result. -/
def Run (g : Grid) (mn mx : ℕ) (ls : LoopState) (r : SearchResult) : Prop :=
  ∃ ls', Relation.ReflTransGen (Step g mn mx) ls ls' ∧ Ends g mn mx ls' r

/-- The loop state set up by lines 89–98 of `heat_loss`. -/
def initLS : LoopState :=
  ([(0, startState)], [(startState, 0)])

/-- All four directions as a finite set. -/
def dirFinset : Finset Direction :=
  {.North, .South, .East, .West}

/-- The finite space of states the search can ever push: in-grid
coordinates, any direction, run length at most `max mx 1`. -/
def stateSpace (g : Grid) (mx : ℕ) : Finset State :=
  ((Finset.range g.length ×ˢ Finset.range (g.headD []).length) ×ˢ
      dirFinset ×ˢ Finset.range (max mx 1 + 1)).image
    fun x => ⟨x.1, x.2.1, x.2.2⟩

/-- Keys of the best-cost table, as a finite set. -/
def bestKeys (best : List (State × ℕ)) : Finset State :=
  (best.map Prod.fst).toFinset

/-- Sum of the recorded best costs, used in the termination measure. -/
def bestSum (best : List (State × ℕ)) : ℕ :=
  (best.map Prod.snd).sum

/-- Shape invariant carried by the search loop for termination: every
frontier state and every best-table key lies in the finite state space. -/
def ShapeInv (g : Grid) (mx : ℕ) (heap : List (ℕ × State))
    (best : List (State × ℕ)) : Prop :=
  (∀ e ∈ heap, e.2 ∈ stateSpace g mx) ∧ bestKeys best ⊆ stateSpace g mx

/-- Replace the cost of cell `(i, j)` (used to state cost monotonicity). -/
def updateCell (g : Grid) (i j v : ℕ) : Grid :=
  g.set i ((g.getD i []).set j v)

/-! ### Basic facts about directions, moves and candidates -/

theorem Direction.turn_left_ne (d : Direction) : d.turn_left ≠ d := by
  cases d <;> decide

theorem Direction.turn_right_ne (d : Direction) : d.turn_right ≠ d := by
  cases d <;> decide

theorem Direction.turn_left_ne_turn_right (d : Direction) :
    d.turn_left ≠ d.turn_right := by
  cases d <;> decide

theorem Direction.eq_or_turn_or_opposite (d e : Direction) :
    e = d ∨ e = d.turn_left ∨ e = d.turn_right ∨ e = d.opposite := by
  cases d <;> cases e <;> decide

theorem Direction.opposite_ne_turns (d : Direction) :
    d.opposite ≠ d ∧ d.opposite ≠ d.turn_left ∧ d.opposite ≠ d.turn_right := by
  cases d <;> decide

theorem try_move_ne {g : Grid} {p q : Coords} {d : Direction}
    (h : try_move g p d = some q) : q ≠ p := by
  cases d <;> simp only [try_move] at h <;> split_ifs at h <;>
    simp_all [Prod.ext_iff] <;> omega

theorem try_move_mem {g : Grid} {p q : Coords} {d : Direction}
    (hp1 : p.1 < g.length) (hp2 : p.2 < (g.headD []).length)
    (h : try_move g p d = some q) : q.1 < g.length ∧ q.2 < (g.headD []).length := by
  cases d <;> simp only [try_move] at h <;> split_ifs at h <;>
    simp_all [Prod.ext_iff] <;> omega

theorem mem_candidates {mn mx : ℕ} {s : State} {d : Direction} {r : ℕ} :
    (d, r) ∈ candidates mn mx s ↔
      ((s.run_length = 0 ∨ mn ≤ s.run_length) ∧
        (d = s.direction.turn_left ∨ d = s.direction.turn_right) ∧ r = 1) ∨
      (s.run_length < mx ∧ d = s.direction ∧ r = s.run_length + 1) := by
  by_cases h1 : s.run_length = 0 ∨ mn ≤ s.run_length <;>
    by_cases h2 : s.run_length < mx <;>
      simp [candidates, h1, h2, Prod.ext_iff] <;> tauto

theorem moveState_of_candidate {g : Grid} {mn mx : ℕ} {s : State}
    {d : Direction} {r : ℕ} {q : Coords}
    (hc : (d, r) ∈ candidates mn mx s) (hm : try_move g s.coords d = some q) :
    moveState g mn mx s d = some ⟨q, d, r⟩ := by
  rcases mem_candidates.mp hc with ⟨hrun, hd, rfl⟩ | ⟨hlt, rfl, rfl⟩
  · have hne : d ≠ s.direction := by
      rcases hd with rfl | rfl
      · exact s.direction.turn_left_ne
      · exact s.direction.turn_right_ne
    simp [moveState, hne, hd, hrun, hm]
  · simp [moveState, hlt, hm]

theorem moveState_some {g : Grid} {mn mx : ℕ} {s s' : State} {d : Direction}
    (h : moveState g mn mx s d = some s') :
    (d, s'.run_length) ∈ candidates mn mx s ∧
      try_move g s.coords d = some s'.coords ∧ s'.direction = d := by
  unfold moveState at h
  cases htm : try_move g s.coords d with
  | none =>
    rw [htm] at h
    split_ifs at h <;> exact Option.noConfusion h
  | some q =>
    rw [htm] at h
    split_ifs at h with h1 h2 h3 h4
    all_goals try exact Option.noConfusion h
    · injection h with h
      subst h
      exact ⟨mem_candidates.mpr (.inr ⟨h2, h1, rfl⟩), rfl, rfl⟩
    · injection h with h
      subst h
      exact ⟨mem_candidates.mpr (.inl ⟨h4, h3, rfl⟩), rfl, rfl⟩

theorem moveState_coords_ne {g : Grid} {mn mx : ℕ} {s s' : State} {d : Direction}
    (h : moveState g mn mx s d = some s') : s'.coords ≠ s.coords :=
  try_move_ne (moveState_some h).2.1

/-! ### Heap-minimum lemmas -/

theorem entryLE_cost {a b : ℕ × State} (h : entryLE a b = true) : a.1 ≤ b.1 := by
  unfold entryLE at h
  split_ifs at h <;> simp_all <;> omega

theorem entryLE_cost_of_not {a b : ℕ × State} (h : entryLE a b = false) :
    b.1 ≤ a.1 := by
  unfold entryLE at h
  split_ifs at h <;> simp_all <;> omega

theorem minEntry_mem (e : ℕ × State) (l : List (ℕ × State)) :
    minEntry e l ∈ e :: l := by
  induction l generalizing e with
  | nil => simp [minEntry]
  | cons x xs ih =>
    simp only [minEntry]
    rcases List.mem_cons.mp (ih (if entryLE e x then e else x)) with h | h
    · rw [h]
      split_ifs <;> simp
    · exact List.mem_cons_of_mem _ (List.mem_cons_of_mem _ h)

theorem minEntry_le (e : ℕ × State) (l : List (ℕ × State)) :
    ∀ x ∈ e :: l, (minEntry e l).1 ≤ x.1 := by
  induction l generalizing e with
  | nil => simp [minEntry]
  | cons y ys ih =>
    intro x hx
    have hbase : (minEntry (if entryLE e y then e else y) ys).1 ≤
        (if entryLE e y then e else y).1 :=
      ih _ _ (List.mem_cons_self _ _)
    have hcost : (if entryLE e y then e else y).1 ≤ e.1 ∧
        (if entryLE e y then e else y).1 ≤ y.1 := by
      cases hE : entryLE e y
      · simp [hE, entryLE_cost_of_not hE]
      · simp [hE, entryLE_cost hE]
    rcases List.mem_cons.mp hx with rfl | hx
    · exact (by simpa [minEntry] using hbase.trans hcost.1)
    rcases List.mem_cons.mp hx with rfl | hx
    · exact (by simpa [minEntry] using hbase.trans hcost.2)
    · simpa [minEntry] using ih _ _ (List.mem_cons_of_mem _ hx)

/-! ### Best-cost table lemmas -/

theorem lookup_setBest_self (b : List (State × ℕ)) (s : State) (v : ℕ) :
    lookup (setBest b s v) s = some v := by
  induction b with
  | nil => simp [setBest, lookup]
  | cons kv rest ih =>
    obtain ⟨k, w⟩ := kv
    by_cases hk : k = s <;> simp [setBest, lookup, hk, ih]

theorem lookup_setBest_ne {s t : State} (b : List (State × ℕ)) (v : ℕ)
    (h : t ≠ s) : lookup (setBest b s v) t = lookup b t := by
  induction b with
  | nil => simp [setBest, lookup, Ne.symm h]
  | cons kv rest ih =>
    obtain ⟨k, w⟩ := kv
    by_cases hk : k = s
    · subst hk
      simp [setBest, lookup, Ne.symm h]
    · by_cases hkt : k = t <;> simp [setBest, lookup, hk, hkt, h, ih]

theorem bestKeys_cons (k : State) (w : ℕ) (rest : List (State × ℕ)) :
    bestKeys ((k, w) :: rest) = insert k (bestKeys rest) := by
  simp [bestKeys]

theorem mem_bestKeys {b : List (State × ℕ)} {s : State} :
    s ∈ bestKeys b ↔ ∃ v, (s, v) ∈ b := by
  induction b with
  | nil => simp [bestKeys]
  | cons kv rest ih =>
    obtain ⟨k, w⟩ := kv
    rw [bestKeys_cons, Finset.mem_insert, ih]
    constructor
    · rintro (rfl | ⟨v, hv⟩)
      · exact ⟨w, List.mem_cons_self _ _⟩
      · exact ⟨v, List.mem_cons_of_mem _ hv⟩
    · rintro ⟨v, hv⟩
      rcases List.mem_cons.mp hv with h | h
      · exact .inl (congrArg Prod.fst h)
      · exact .inr ⟨v, h⟩

theorem lookup_eq_none_iff {b : List (State × ℕ)} {s : State} :
    lookup b s = none ↔ s ∉ bestKeys b := by
  induction b with
  | nil => simp [lookup, bestKeys]
  | cons kv rest ih =>
    obtain ⟨k, w⟩ := kv
    rw [bestKeys_cons]
    by_cases hk : k = s
    · subst hk
      simp [lookup]
    · simp [lookup, hk, ih, Ne.symm hk]

theorem bestKeys_setBest_of_mem {b : List (State × ℕ)} {s : State} (v : ℕ)
    (h : s ∈ bestKeys b) : bestKeys (setBest b s v) = bestKeys b := by
  induction b with
  | nil => simp [bestKeys] at h
  | cons kv rest ih =>
    obtain ⟨k, w⟩ := kv
    by_cases hk : k = s
    · simp [setBest, hk, bestKeys_cons]
    · have hmem : s ∈ bestKeys rest := by
        rw [bestKeys_cons] at h
        rcases Finset.mem_insert.mp h with h | h
        · exact absurd h.symm hk
        · exact h
      rw [setBest, if_neg hk, bestKeys_cons, bestKeys_cons, ih hmem]

theorem bestKeys_setBest_of_not_mem {b : List (State × ℕ)} {s : State} (v : ℕ)
    (h : s ∉ bestKeys b) : bestKeys (setBest b s v) = insert s (bestKeys b) := by
  induction b with
  | nil => simp [setBest, bestKeys]
  | cons kv rest ih =>
    obtain ⟨k, w⟩ := kv
    rw [bestKeys_cons] at h
    have hk : k ≠ s := fun hks => h (by simp [hks])
    have hmem : s ∉ bestKeys rest := fun hs => h (Finset.mem_insert_of_mem hs)
    rw [setBest, if_neg hk, bestKeys_cons, bestKeys_cons, ih hmem,
      Finset.Insert.comm]

theorem bestSum_setBest_lt {b : List (State × ℕ)} {s : State} {old v : ℕ}
    (hl : lookup b s = some old) (hv : v < old) :
    bestSum (setBest b s v) < bestSum b := by
  induction b with
  | nil => simp [lookup] at hl
  | cons kv rest ih =>
    obtain ⟨k, w⟩ := kv
    by_cases hk : k = s
    · subst hk
      have hw : w = old := by simpa [lookup] using hl
      subst hw
      simp [setBest, bestSum]
      omega
    · simp only [lookup, if_neg hk] at hl
      have := ih hl
      simp [setBest, hk, bestSum] at this ⊢
      omega

/-! ### walkPath composition -/

theorem walkPath_append (g : Grid) (mn mx : ℕ) (s : State)
    (xs ys : List Direction) :
    walkPath g mn mx s (xs ++ ys) =
      (walkPath g mn mx s xs).bind fun tc =>
        (walkPath g mn mx tc.1 ys).map fun uc => (uc.1, tc.2 + uc.2) := by
  induction xs generalizing s with
  | nil => simp [walkPath]
  | cons d ds ih =>
    simp only [List.cons_append, walkPath, List.append_eq]
    cases moveState g mn mx s d with
    | none => simp
    | some s' =>
      simp only [Option.some_bind]
      rw [ih s']
      cases hw : walkPath g mn mx s' ds with
      | none => simp
      | some tc =>
        simp only [Option.some_bind]
        cases hw2 : walkPath g mn mx tc.1 ys with
        | none => simp [hw2]
        | some uc => simp [hw2, Nat.add_assoc]

/-! ### Relaxation lemmas -/

theorem shouldPush_eq_false {best : List (State × ℕ)} {s' : State} {c' : ℕ} :
    shouldPush best s' c' = false ↔ ∃ v, lookup best s' = some v ∧ v ≤ c' := by
  unfold shouldPush
  cases h : lookup best s' <;> simp [h]

theorem shouldPush_eq_true {best : List (State × ℕ)} {s' : State} {c' : ℕ} :
    shouldPush best s' c' = true ↔ ∀ v, lookup best s' = some v → c' < v := by
  unfold shouldPush
  cases h : lookup best s' <;> simp [h]

theorem relax_of_try_move {g : Grid} {cost : ℕ} {st : State}
    {cand : Direction × ℕ} {q : Coords} (hb : LoopState)
    (htm : try_move g st.coords cand.1 = some q) :
    relax g cost st hb cand =
      if shouldPush hb.2 ⟨q, cand.1, cand.2⟩ (cost + cellCost g q) then
        (hb.1 ++ [(cost + cellCost g q, (⟨q, cand.1, cand.2⟩ : State))],
          setBest hb.2 ⟨q, cand.1, cand.2⟩ (cost + cellCost g q))
      else hb := by
  unfold relax
  rw [htm]

theorem relax_cases (g : Grid) (cost : ℕ) (st : State) (hb : LoopState)
    (cand : Direction × ℕ) :
    relax g cost st hb cand = hb ∨
      ∃ q, try_move g st.coords cand.1 = some q ∧
        shouldPush hb.2 ⟨q, cand.1, cand.2⟩ (cost + cellCost g q) = true ∧
        relax g cost st hb cand =
          (hb.1 ++ [(cost + cellCost g q, (⟨q, cand.1, cand.2⟩ : State))],
            setBest hb.2 ⟨q, cand.1, cand.2⟩ (cost + cellCost g q)) := by
  cases htm : try_move g st.coords cand.1 with
  | none =>
    left
    unfold relax
    rw [htm]
  | some q =>
    rw [relax_of_try_move hb htm]
    by_cases hp : shouldPush hb.2 ⟨q, cand.1, cand.2⟩ (cost + cellCost g q) = true
    · right
      exact ⟨q, rfl, hp, by rw [if_pos hp]⟩
    · left
      rw [if_neg hp]

section ExpandLemmas

variable {g : Grid} {mn mx : ℕ} {cost : ℕ} {st : State}

theorem foldl_relax_heap_mono (l : List (Direction × ℕ)) (hb : LoopState)
    {x : ℕ × State} (hx : x ∈ hb.1) :
    x ∈ (List.foldl (relax g cost st) hb l).1 := by
  induction l generalizing hb with
  | nil => exact hx
  | cons c l ih =>
    rw [List.foldl_cons]
    apply ih
    rcases relax_cases g cost st hb c with h | ⟨q, _, _, h⟩ <;> rw [h]
    · exact hx
    · exact List.mem_append_left _ hx

theorem foldl_relax_lookup_mono (l : List (Direction × ℕ)) (hb : LoopState)
    {t : State} {bt : ℕ} (h : lookup hb.2 t = some bt) :
    ∃ bt' ≤ bt, lookup (List.foldl (relax g cost st) hb l).2 t = some bt' := by
  induction l generalizing hb bt with
  | nil => exact ⟨bt, le_rfl, h⟩
  | cons c l ih =>
    rw [List.foldl_cons]
    rcases relax_cases g cost st hb c with hc | ⟨q, _, hp, hc⟩
    · rw [hc]; exact ih hb h
    · rw [hc]
      by_cases ht : t = (⟨q, c.1, c.2⟩ : State)
      · subst ht
        have hlt := shouldPush_eq_true.mp hp bt h
        obtain ⟨bt', hle, hl'⟩ := ih
          (hb.1 ++ [(cost + cellCost g q, (⟨q, c.1, c.2⟩ : State))],
            setBest hb.2 ⟨q, c.1, c.2⟩ (cost + cellCost g q))
          (lookup_setBest_self hb.2 _ _)
        exact ⟨bt', hle.trans hlt.le, hl'⟩
      · obtain ⟨bt', hle, hl'⟩ := ih
          (hb.1 ++ [(cost + cellCost g q, (⟨q, c.1, c.2⟩ : State))],
            setBest hb.2 ⟨q, c.1, c.2⟩ (cost + cellCost g q))
          (show lookup (setBest hb.2 ⟨q, c.1, c.2⟩ (cost + cellCost g q)) t = some bt by
            rw [lookup_setBest_ne _ _ ht]; exact h)
        exact ⟨bt', hle, hl'⟩

theorem foldl_relax_lookup_low (l : List (Direction × ℕ)) (hb : LoopState)
    {t : State} {bt : ℕ} (h : lookup hb.2 t = some bt) (hle : bt ≤ cost) :
    lookup (List.foldl (relax g cost st) hb l).2 t = some bt := by
  induction l generalizing hb with
  | nil => exact h
  | cons c l ih =>
    rw [List.foldl_cons]
    rcases relax_cases g cost st hb c with hc | ⟨q, _, hp, hc⟩
    · rw [hc]; exact ih hb h
    · rw [hc]
      by_cases ht : t = (⟨q, c.1, c.2⟩ : State)
      · subst ht
        have hlt := shouldPush_eq_true.mp hp bt h
        omega
      · exact ih
          (hb.1 ++ [(cost + cellCost g q, (⟨q, c.1, c.2⟩ : State))],
            setBest hb.2 ⟨q, c.1, c.2⟩ (cost + cellCost g q))
          (show lookup (setBest hb.2 ⟨q, c.1, c.2⟩ (cost + cellCost g q)) t = some bt by
            rw [lookup_setBest_ne _ _ ht]; exact h)

theorem foldl_relax_heap_new (l : List (Direction × ℕ)) (hb : LoopState)
    (hl : ∀ c ∈ l, c ∈ candidates mn mx st) {x : ℕ × State}
    (hx : x ∈ (List.foldl (relax g cost st) hb l).1) :
    x ∈ hb.1 ∨ ∃ s', moveState g mn mx st s'.direction = some s' ∧
      x = (cost + cellCost g s'.coords, s') ∧
      ∃ b' ≤ x.1, lookup (List.foldl (relax g cost st) hb l).2 s' = some b' := by
  induction l generalizing hb with
  | nil => exact .inl hx
  | cons c l ih =>
    rw [List.foldl_cons] at hx ⊢
    rcases ih (relax g cost st hb c) (fun c hc => hl c (List.mem_cons_of_mem _ hc))
        hx with h | ⟨s', hms, hxe, hb'⟩
    · rcases relax_cases g cost st hb c with hc | ⟨q, htm, hp, hc⟩
      · rw [hc] at h; exact .inl h
      · rw [hc] at h
        rcases List.mem_append.mp h with h | h
        · exact .inl h
        · right
          have hms := @moveState_of_candidate g mn mx st c.1 c.2 q
            (hl c (List.mem_cons_self _ _)) htm
          simp only [List.mem_singleton] at h
          subst h
          refine ⟨⟨q, c.1, c.2⟩, hms, rfl, ?_⟩
          obtain ⟨b', hle, hl'⟩ := foldl_relax_lookup_mono l (relax g cost st hb c)
            (show lookup (relax g cost st hb c).2 (⟨q, c.1, c.2⟩ : State) =
                some (cost + cellCost g q) by
              rw [hc]; exact lookup_setBest_self _ _ _)
          exact ⟨b', hle, hl'⟩
    · exact .inr ⟨s', hms, hxe, hb'⟩

theorem foldl_relax_lookup_new (l : List (Direction × ℕ)) (hb : LoopState)
    (hl : ∀ c ∈ l, c ∈ candidates mn mx st) {t : State} {bt : ℕ}
    (h : lookup (List.foldl (relax g cost st) hb l).2 t = some bt) :
    lookup hb.2 t = some bt ∨
      moveState g mn mx st t.direction = some t ∧
        bt = cost + cellCost g t.coords ∧
        (bt, t) ∈ (List.foldl (relax g cost st) hb l).1 := by
  induction l generalizing hb with
  | nil => exact .inl h
  | cons c l ih =>
    rw [List.foldl_cons] at h ⊢
    rcases ih (relax g cost st hb c) (fun c hc => hl c (List.mem_cons_of_mem _ hc))
        h with h' | h'
    · rcases relax_cases g cost st hb c with hc | ⟨q, htm, hp, hc⟩
      · rw [hc] at h'; exact .inl h'
      · rw [hc] at h'
        by_cases ht : t = (⟨q, c.1, c.2⟩ : State)
        · subst ht
          rw [lookup_setBest_self] at h'
          cases h'
          right
          have hms := @moveState_of_candidate g mn mx st c.1 c.2 q
            (hl c (List.mem_cons_self _ _)) htm
          refine ⟨hms, rfl, foldl_relax_heap_mono l (relax g cost st hb c) ?_⟩
          rw [hc]
          exact List.mem_append_right _ (List.mem_singleton_self _)
        · rw [lookup_setBest_ne _ _ ht] at h'
          exact .inl h'
    · exact .inr h'

theorem foldl_relax_succ (l : List (Direction × ℕ)) (hb : LoopState)
    {d : Direction} {s' : State}
    (hm : moveState g mn mx st d = some s')
    (hmem : (d, s'.run_length) ∈ l) :
    ∃ b' ≤ cost + cellCost g s'.coords,
      lookup (List.foldl (relax g cost st) hb l).2 s' = some b' := by
  induction l generalizing hb with
  | nil => simp at hmem
  | cons c l ih =>
    rw [List.foldl_cons]
    rcases List.mem_cons.mp hmem with hmem | hmem
    · obtain ⟨hcand, htm, hdir⟩ := moveState_some hm
      have hs' : (⟨s'.coords, d, s'.run_length⟩ : State) = s' := by
        cases s'
        simp only at hdir ⊢
        rw [hdir]
      subst hmem
      rw [relax_of_try_move hb htm, hs']
      by_cases hp : shouldPush hb.2 s' (cost + cellCost g s'.coords) = true
      · rw [if_pos hp]
        exact foldl_relax_lookup_mono l _ (lookup_setBest_self _ _ _)
      · rw [if_neg hp]
        obtain ⟨v, hv, hvle⟩ :=
          shouldPush_eq_false.mp (Bool.eq_false_iff.mpr hp)
        obtain ⟨b', hle, hl'⟩ := foldl_relax_lookup_mono l hb hv
        exact ⟨b', hle.trans hvle, hl'⟩
    · exact ih _ hmem

end ExpandLemmas

/-! ### State space, shape invariant and termination measure -/

theorem mem_dirFinset (d : Direction) : d ∈ dirFinset := by
  cases d <;> decide

theorem mem_stateSpace {g : Grid} {mx : ℕ} {s : State} :
    s ∈ stateSpace g mx ↔
      s.coords.1 < g.length ∧ s.coords.2 < (g.headD []).length ∧
        s.run_length ≤ max mx 1 := by
  unfold stateSpace
  rw [Finset.mem_image]
  constructor
  · rintro ⟨x, hx, rfl⟩
    rw [Finset.mem_product, Finset.mem_product, Finset.mem_product] at hx
    obtain ⟨⟨h1, h2⟩, _, h4⟩ := hx
    rw [Finset.mem_range] at h1 h2
    rw [Finset.mem_range] at h4
    refine ⟨?_, ?_, ?_⟩ <;> dsimp only <;> omega
  · rintro ⟨h1, h2, h3⟩
    refine ⟨(s.coords, s.direction, s.run_length), ?_, rfl⟩
    rw [Finset.mem_product, Finset.mem_product, Finset.mem_product]
    refine ⟨⟨Finset.mem_range.mpr h1, Finset.mem_range.mpr h2⟩,
      mem_dirFinset _, Finset.mem_range.mpr ?_⟩
    dsimp only
    omega

theorem lookup_isSome_mem_bestKeys {b : List (State × ℕ)} {s : State} {v : ℕ}
    (h : lookup b s = some v) : s ∈ bestKeys b := by
  by_contra hm
  rw [← lookup_eq_none_iff] at hm
  rw [h] at hm
  exact Option.noConfusion hm

theorem shapeInv_erase {g : Grid} {mx : ℕ} {heap : List (ℕ × State)}
    {best : List (State × ℕ)} (e : ℕ × State) (h : ShapeInv g mx heap best) :
    ShapeInv g mx (heap.erase e) best :=
  ⟨fun x hx => h.1 x (List.mem_of_mem_erase hx), h.2⟩

theorem candidate_state_mem {g : Grid} {mn mx : ℕ} {st : State}
    (hst : st ∈ stateSpace g mx) {c : Direction × ℕ}
    (hc : c ∈ candidates mn mx st) {q : Coords}
    (htm : try_move g st.coords c.1 = some q) :
    (⟨q, c.1, c.2⟩ : State) ∈ stateSpace g mx := by
  obtain ⟨d, r⟩ := c
  obtain ⟨h1, h2, _⟩ := mem_stateSpace.mp hst
  obtain ⟨hq1, hq2⟩ := try_move_mem h1 h2 htm
  refine mem_stateSpace.mpr ⟨hq1, hq2, ?_⟩
  dsimp only
  rcases mem_candidates.mp hc with ⟨_, _, hr⟩ | ⟨hlt, _, hr⟩ <;> subst hr <;> omega

theorem bestKeys_subset_setBest (b : List (State × ℕ)) (s : State) (v : ℕ) :
    bestKeys b ⊆ bestKeys (setBest b s v) := by
  by_cases h : s ∈ bestKeys b
  · rw [bestKeys_setBest_of_mem v h]
  · rw [bestKeys_setBest_of_not_mem v h]
    exact Finset.subset_insert _ _

theorem bestKeys_setBest_subset (b : List (State × ℕ)) (s : State) (v : ℕ) :
    bestKeys (setBest b s v) ⊆ insert s (bestKeys b) := by
  by_cases h : s ∈ bestKeys b
  · rw [bestKeys_setBest_of_mem v h]
    exact Finset.subset_insert _ _
  · rw [bestKeys_setBest_of_not_mem v h]

section ShapeMeasure

variable {g : Grid} {mn mx : ℕ} {cost : ℕ} {st : State}

theorem shapeInv_foldl_relax (l : List (Direction × ℕ)) (hb : LoopState)
    (hst : st ∈ stateSpace g mx)
    (hl : ∀ c ∈ l, c ∈ candidates mn mx st)
    (h : ShapeInv g mx hb.1 hb.2) :
    ShapeInv g mx (List.foldl (relax g cost st) hb l).1
      (List.foldl (relax g cost st) hb l).2 := by
  induction l generalizing hb with
  | nil => exact h
  | cons c l ih =>
    rw [List.foldl_cons]
    refine ih _ (fun c hc => hl c (List.mem_cons_of_mem _ hc)) ?_
    rcases relax_cases g cost st hb c with hc | ⟨q, htm, _, hc⟩
    · rw [hc]; exact h
    · rw [hc]
      constructor
      · intro x hx
        rcases List.mem_append.mp hx with hx | hx
        · exact h.1 x hx
        · simp only [List.mem_singleton] at hx
          subst hx
          exact candidate_state_mem hst (hl c (List.mem_cons_self _ _)) htm
      · intro k hk
        rcases Finset.mem_insert.mp (bestKeys_setBest_subset _ _ _ hk) with hk | hk
        · subst hk
          exact candidate_state_mem hst (hl c (List.mem_cons_self _ _)) htm
        · exact h.2 hk

theorem foldl_relax_keys_mono (l : List (Direction × ℕ)) (hb : LoopState) :
    bestKeys hb.2 ⊆ bestKeys (List.foldl (relax g cost st) hb l).2 := by
  induction l generalizing hb with
  | nil => exact Finset.Subset.refl _
  | cons c l ih =>
    rw [List.foldl_cons]
    refine Finset.Subset.trans ?_ (ih _)
    rcases relax_cases g cost st hb c with hc | ⟨q, _, _, hc⟩ <;> rw [hc]
    exact bestKeys_subset_setBest _ _ _

theorem foldl_relax_measure (l : List (Direction × ℕ)) (hb : LoopState) :
    List.foldl (relax g cost st) hb l = hb ∨
      (bestKeys (List.foldl (relax g cost st) hb l).2 = bestKeys hb.2 ∧
        bestSum (List.foldl (relax g cost st) hb l).2 < bestSum hb.2) ∨
      bestKeys hb.2 ⊂ bestKeys (List.foldl (relax g cost st) hb l).2 := by
  induction l generalizing hb with
  | nil => exact .inl rfl
  | cons c l ih =>
    rw [List.foldl_cons]
    rcases relax_cases g cost st hb c with hc | ⟨q, _, hp, hc⟩
    · rw [hc]; exact ih hb
    · cases hlk : lookup hb.2 ⟨q, c.1, c.2⟩ with
      | some v =>
        have hlt : cost + cellCost g q < v := shouldPush_eq_true.mp hp v hlk
        have hkeys : bestKeys (relax g cost st hb c).2 = bestKeys hb.2 := by
          rw [hc]
          exact bestKeys_setBest_of_mem _ (lookup_isSome_mem_bestKeys hlk)
        have hsum : bestSum (relax g cost st hb c).2 < bestSum hb.2 := by
          rw [hc]
          exact bestSum_setBest_lt hlk hlt
        rcases ih (relax g cost st hb c) with h | ⟨hk, hs⟩ | h
        · rw [h]
          exact .inr (.inl ⟨hkeys, hsum⟩)
        · exact .inr (.inl ⟨hk.trans hkeys, hs.trans hsum⟩)
        · refine .inr (.inr ?_)
          rw [← hkeys]
          exact h
      | none =>
        have hnot : (⟨q, c.1, c.2⟩ : State) ∉ bestKeys hb.2 :=
          lookup_eq_none_iff.mp hlk
        have hkeys : bestKeys (relax g cost st hb c).2 =
            insert (⟨q, c.1, c.2⟩ : State) (bestKeys hb.2) := by
          rw [hc]
          exact bestKeys_setBest_of_not_mem _ hnot
        refine .inr (.inr (Finset.ssubset_of_ssubset_of_subset ?_
          (foldl_relax_keys_mono l _)))
        rw [hkeys]
        exact Finset.ssubset_insert hnot

end ShapeMeasure

/-! ### The search loop -/

/-- The `while let Some(Reverse((heat_loss, state))) = heap.pop()` loop of
`heat_loss` (lines 100–137): pop the least `(cost, state)` entry; return
its cost if it satisfies the goal predicate; skip it when stale
(`heat_loss > *best.get(&state).unwrap()`); otherwise relax all legal
successors.  An exhausted frontier reaches the `unreachable!()` panic.
The shape-invariant argument only feeds the termination measure. -/
def go (g : Grid) (mn mx : ℕ) (heap : List (ℕ × State)) (best : List (State × ℕ))
    (hinv : ShapeInv g mx heap best) : SearchResult :=
  match heap with
  | [] => .panicked
  | e :: rest =>
    if isGoal g mn (minEntry e rest).2 then .found (minEntry e rest).1
    else
      match lookup best (minEntry e rest).2 with
      | none => .unwrapPanic
      | some b =>
        if b < (minEntry e rest).1 then
          go g mn mx ((e :: rest).erase (minEntry e rest)) best
            (shapeInv_erase _ hinv)
        else
          go g mn mx
            (expand g mn mx (minEntry e rest).1 (minEntry e rest).2
              ((e :: rest).erase (minEntry e rest)) best).1
            (expand g mn mx (minEntry e rest).1 (minEntry e rest).2
              ((e :: rest).erase (minEntry e rest)) best).2
            (shapeInv_foldl_relax _ _
              (hinv.1 _ (minEntry_mem e rest)) (fun c hc => hc)
              (shapeInv_erase _ hinv))
termination_by ((stateSpace g mx).card - (bestKeys best).card, bestSum best, heap.length)
decreasing_by
  · apply Prod.Lex.right
    apply Prod.Lex.right
    rw [List.length_erase_of_mem (minEntry_mem e rest)]
    simp [List.length_cons]
  · have hm := minEntry_mem e rest
    have hst : (minEntry e rest).2 ∈ stateSpace g mx := hinv.1 _ hm
    have hsh : ShapeInv g mx
        (List.foldl (relax g (minEntry e rest).1 (minEntry e rest).2)
          ((e :: rest).erase (minEntry e rest), best)
          (candidates mn mx (minEntry e rest).2)).1
        (List.foldl (relax g (minEntry e rest).1 (minEntry e rest).2)
          ((e :: rest).erase (minEntry e rest), best)
          (candidates mn mx (minEntry e rest).2)).2 :=
      shapeInv_foldl_relax (candidates mn mx (minEntry e rest).2)
        ((e :: rest).erase (minEntry e rest), best) hst (fun c hc => hc)
        (shapeInv_erase _ hinv)
    unfold expand
    rcases @foldl_relax_measure g (minEntry e rest).1 (minEntry e rest).2
        (candidates mn mx (minEntry e rest).2)
        ((e :: rest).erase (minEntry e rest), best) with hEq | ⟨hk, hs⟩ | hss
    · rw [hEq]
      apply Prod.Lex.right
      apply Prod.Lex.right
      rw [List.length_erase_of_mem (minEntry_mem e rest)]
      simp [List.length_cons]
    · rw [hk]
      apply Prod.Lex.right
      exact Prod.Lex.left _ _ hs
    · apply Prod.Lex.left
      have h1 := Finset.card_lt_card hss
      have h2 := Finset.card_le_card hsh.2
      dsimp only at h1 h2
      omega

/-- Mirrors `fn heat_loss(grid: &Grid, min_run_length: usize,
max_run_length: usize) -> u32` (lines 88–138).  On a grid with no rows or
an empty first row the Rust code panics while evaluating
`grid.len() - 1` / `grid[0]` in the goal test, modelled by the immediate
`panicked` result; otherwise the search loop runs from the synthetic
start state with best-cost table `{start ↦ 0}`. -/
def heat_loss (g : Grid) (mn mx : ℕ) : SearchResult :=
  if h : g.length = 0 ∨ (g.headD []).length = 0 then .panicked
  else
    go g mn mx [(0, startState)] [(startState, 0)]
      (by
        push_neg at h
        constructor
        · intro e he
          rw [List.mem_singleton] at he
          subst he
          refine mem_stateSpace.mpr ⟨?_, ?_, Nat.zero_le _⟩
          · show 0 < List.length g
            omega
          · show 0 < List.length (g.headD [])
            omega
        · intro k hk
          have : k = startState := by
            simpa [bestKeys] using hk
          subst this
          refine mem_stateSpace.mpr ⟨?_, ?_, Nat.zero_le _⟩
          · show 0 < List.length g
            omega
          · show 0 < List.length (g.headD [])
            omega)

/-! ### Search invariant -/

theorem walkPath_snoc {g : Grid} {mn mx : ℕ} {s : State} {π : List Direction}
    {d : Direction} {t : State} {c : ℕ} :
    walkPath g mn mx s (π ++ [d]) = some (t, c) ↔
      ∃ u c₁, walkPath g mn mx s π = some (u, c₁) ∧
        moveState g mn mx u d = some t ∧ c = c₁ + cellCost g t.coords := by
  rw [walkPath_append]
  cases hu : walkPath g mn mx s π with
  | none => simp
  | some uc =>
    obtain ⟨u, c₁⟩ := uc
    simp only [Option.some_bind]
    cases hm : moveState g mn mx u d with
    | none => simp [walkPath, hm]
    | some s' =>
      have hw1 : walkPath g mn mx u [d] = some (s', cellCost g s'.coords) := by
        simp [walkPath, hm]
      rw [hw1]
      simp only [Option.map_some', Option.some.injEq, Prod.mk.injEq]
      constructor
      · rintro ⟨rfl, rfl⟩
        exact ⟨u, c₁, ⟨rfl, rfl⟩, hm, rfl⟩
      · rintro ⟨u', c₁', huc, hm', rfl⟩
        obtain ⟨rfl, rfl⟩ : u = u' ∧ c₁ = c₁' := by
          simpa [Prod.ext_iff] using huc
        rw [hm'] at hm
        obtain rfl := Option.some.inj hm
        exact ⟨rfl, rfl⟩

/-- The invariant of the search loop, with a ghost set `D` of
finalized (expanded) states.  `entries` and `sound` say every frontier
entry and every best-table value is the cost of an actual legal path;
`fresh` says every touched, unfinalized state keeps an up-to-date entry
in the frontier; `noGoal` says finalized states never satisfy the goal;
`relaxed` says finalized states have all their successors relaxed and
cost below the whole frontier; `startZero` pins the start state's
table entry. -/
structure Inv (g : Grid) (mn mx : ℕ) (heap : List (ℕ × State))
    (best : List (State × ℕ)) (D : Set State) : Prop where
  entries : ∀ e ∈ heap,
    (∃ π, walkPath g mn mx startState π = some (e.2, e.1)) ∧
      ∃ v, lookup best e.2 = some v ∧ v ≤ e.1
  sound : ∀ s v, lookup best s = some v →
    ∃ π, walkPath g mn mx startState π = some (s, v)
  fresh : ∀ s ∉ D, ∀ v, lookup best s = some v → (v, s) ∈ heap
  noGoal : ∀ s ∈ D, ¬ isGoal g mn s
  relaxed : ∀ s ∈ D, ∃ v, lookup best s = some v ∧
    (∀ d s', moveState g mn mx s d = some s' →
      ∃ v', lookup best s' = some v' ∧ v' ≤ v + cellCost g s'.coords) ∧
    ∀ e ∈ heap, v ≤ e.1
  startZero : lookup best startState = some 0

theorem Inv.cover {g : Grid} {mn mx : ℕ} {heap : List (ℕ × State)}
    {best : List (State × ℕ)} {D : Set State}
    (inv : Inv g mn mx heap best D) {π : List Direction} {t : State} {c : ℕ}
    (hw : walkPath g mn mx startState π = some (t, c)) :
    (∃ u v, u ∉ D ∧ lookup best u = some v ∧ v ≤ c) ∨
      (t ∈ D ∧ ∃ v, lookup best t = some v ∧ v ≤ c) := by
  induction π using List.reverseRecOn generalizing t c with
  | nil =>
    rw [show walkPath g mn mx startState [] = some (startState, 0) from rfl] at hw
    obtain ⟨rfl, rfl⟩ : startState = t ∧ 0 = c := by
      simpa [Prod.ext_iff] using hw
    by_cases hD : startState ∈ D
    · exact .inr ⟨hD, 0, inv.startZero, le_rfl⟩
    · exact .inl ⟨startState, 0, hD, inv.startZero, le_rfl⟩
  | append_singleton π d ih =>
    obtain ⟨u, c₁, hu, hm, rfl⟩ := walkPath_snoc.mp hw
    rcases ih hu with ⟨u', v', h1, h2, h3⟩ | ⟨hD, v, hv, hvle⟩
    · exact .inl ⟨u', v', h1, h2, h3.trans (Nat.le_add_right _ _)⟩
    · obtain ⟨vu, hvu, hrel, _⟩ := inv.relaxed u hD
      rw [hv] at hvu
      obtain rfl := Option.some.inj hvu
      obtain ⟨v', hv', hle'⟩ := hrel d t hm
      have hcle : v' ≤ c₁ + cellCost g t.coords := by omega
      by_cases hDt : t ∈ D
      · exact .inr ⟨hDt, v', hv', hcle⟩
      · exact .inl ⟨t, v', hDt, hv', hcle⟩

theorem Inv.stale_step {g : Grid} {mn mx : ℕ} {heap : List (ℕ × State)}
    {best : List (State × ℕ)} {D : Set State}
    (inv : Inv g mn mx heap best D) {e : ℕ × State} {rest : List (ℕ × State)}
    {b : ℕ} (hpop : PopOk heap e rest) (hlk : lookup best e.2 = some b)
    (hlt : b < e.1) : Inv g mn mx rest best D := by
  obtain ⟨hmem, hmin, rfl⟩ := hpop
  refine ⟨?_, inv.sound, ?_, inv.noGoal, ?_, inv.startZero⟩
  · exact fun x hx => inv.entries x (List.mem_of_mem_erase hx)
  · intro s hs v hv
    have hne : (v, s) ≠ e := by
      intro he
      rw [← he] at hlk
      dsimp only at hlk
      rw [hv] at hlk
      have : v = b := Option.some.inj hlk
      rw [← he] at hlt
      omega
    exact (List.mem_erase_of_ne hne).mpr (inv.fresh s hs v hv)
  · intro s hs
    obtain ⟨v, hv, hrel, hbound⟩ := inv.relaxed s hs
    exact ⟨v, hv, hrel, fun x hx => hbound x (List.mem_of_mem_erase hx)⟩

theorem Inv.relax_step {g : Grid} {mn mx : ℕ} {heap : List (ℕ × State)}
    {best : List (State × ℕ)} {D : Set State}
    (inv : Inv g mn mx heap best D) {e : ℕ × State} {rest : List (ℕ × State)}
    {b : ℕ} (hpop : PopOk heap e rest) (hgoal : ¬ isGoal g mn e.2)
    (hlk : lookup best e.2 = some b) (hge : ¬ b < e.1) :
    Inv g mn mx (expand g mn mx e.1 e.2 rest best).1
      (expand g mn mx e.1 e.2 rest best).2 (insert e.2 D) := by
  obtain ⟨hmem, hmin, hrest⟩ := hpop
  have hbe : b = e.1 := by
    obtain ⟨_, v, hv, hvle⟩ := inv.entries e hmem
    rw [hlk] at hv
    have := Option.some.inj hv
    omega
  subst hbe
  obtain ⟨⟨πe, hπe⟩, -⟩ := inv.entries e hmem
  have hsub : ∀ x ∈ rest, x ∈ heap := by
    subst hrest
    exact fun x hx => List.mem_of_mem_erase hx
  -- `expand` is the fold of `relax` over the candidate list.
  have hexp : expand g mn mx e.1 e.2 rest best =
      List.foldl (relax g e.1 e.2) (rest, best) (candidates mn mx e.2) := rfl
  rw [hexp]
  set F := List.foldl (relax g e.1 e.2) (rest, best) (candidates mn mx e.2) with hF
  have hcands : ∀ c ∈ candidates mn mx e.2, c ∈ candidates mn mx e.2 :=
    fun c hc => hc
  -- The popped state's own entry is not changed by the expansion.
  have hself : lookup F.2 e.2 = some e.1 :=
    foldl_relax_lookup_low _ (rest, best) hlk le_rfl
  -- The best entry of each finalized state is below the popped cost and
  -- therefore survives the expansion unchanged.
  have hDlow : ∀ s ∈ D, ∀ v, lookup best s = some v →
      lookup F.2 s = some v := by
    intro s hs v hv
    obtain ⟨v', hv', _, hbound⟩ := inv.relaxed s hs
    rw [hv] at hv'
    have hveq := Option.some.inj hv'
    subst hveq
    exact foldl_relax_lookup_low _ (rest, best) hv (hbound e hmem)
  refine ⟨?_, ?_, ?_, ?_, ?_, ?_⟩
  · -- entries
    intro x hx
    rcases foldl_relax_heap_new _ (rest, best) hcands hx with hold | hnew
    · obtain ⟨hπ, v, hv, hvle⟩ := inv.entries x (hsub x hold)
      obtain ⟨v', hle', hv'⟩ :=
        (show ∃ v' ≤ v, lookup F.2 x.2 = some v' from
          foldl_relax_lookup_mono _ (rest, best) hv)
      exact ⟨hπ, v', hv', hle'.trans hvle⟩
    · obtain ⟨s', hms, hxe, v', hvle', hv'⟩ := hnew
      subst hxe
      refine ⟨⟨πe ++ [s'.direction], ?_⟩, v', hv', hvle'⟩
      exact walkPath_snoc.mpr ⟨e.2, e.1, hπe, hms, rfl⟩
  · -- sound
    intro s v hv
    rcases foldl_relax_lookup_new _ (rest, best) hcands hv with hold | ⟨hms, hvv, _⟩
    · exact inv.sound s v hold
    · subst hvv
      exact ⟨πe ++ [s.direction], walkPath_snoc.mpr ⟨e.2, e.1, hπe, hms, rfl⟩⟩
  · -- fresh
    intro s hs v hv
    have hsD : s ∉ D := fun h => hs (Set.mem_insert_of_mem _ h)
    have hsne : s ≠ e.2 := fun h => hs (h ▸ Set.mem_insert _ _)
    rcases foldl_relax_lookup_new _ (rest, best) hcands hv with hold | ⟨_, _, hin⟩
    · have hin : (v, s) ∈ heap := inv.fresh s hsD v hold
      have hne : (v, s) ≠ e := fun h => hsne (congrArg Prod.snd h)
      refine foldl_relax_heap_mono _ (rest, best) ?_
      subst hrest
      exact (List.mem_erase_of_ne hne).mpr hin
    · exact hin
  · -- noGoal
    intro s hs
    rcases Set.mem_insert_iff.mp hs with rfl | hs
    · exact hgoal
    · exact inv.noGoal s hs
  · -- relaxed
    intro s hs
    rcases Set.mem_insert_iff.mp hs with rfl | hs
    · refine ⟨e.1, hself, ?_, ?_⟩
      · intro d s' hms
        obtain ⟨hcand, _, _⟩ := moveState_some hms
        obtain ⟨v', hvle', hv'⟩ :=
          (show ∃ v' ≤ e.1 + cellCost g s'.coords, lookup F.2 s' = some v' from
            foldl_relax_succ _ (rest, best) hms hcand)
        exact ⟨v', hv', hvle'⟩
      · intro x hx
        rcases foldl_relax_heap_new _ (rest, best) hcands hx with hold | hnew
        · exact hmin x (hsub x hold)
        · obtain ⟨s', _, hxe, -⟩ := hnew
          subst hxe
          exact Nat.le_add_right _ _
    · obtain ⟨v, hv, hrel, hbound⟩ := inv.relaxed s hs
      refine ⟨v, hDlow s hs v hv, ?_, ?_⟩
      · intro d s' hms
        obtain ⟨v', hv', hle'⟩ := hrel d s' hms
        obtain ⟨v'', hle'', hv''⟩ :=
          (show ∃ v'' ≤ v', lookup F.2 s' = some v'' from
            foldl_relax_lookup_mono _ (rest, best) hv')
        exact ⟨v'', hv'', hle''.trans hle'⟩
      · intro x hx
        rcases foldl_relax_heap_new _ (rest, best) hcands hx with hold | hnew
        · exact hbound x (hsub x hold)
        · obtain ⟨s', _, hxe, -⟩ := hnew
          subst hxe
          have := hbound e hmem
          dsimp only
          omega
  · -- startZero
    exact foldl_relax_lookup_low _ (rest, best) inv.startZero (Nat.zero_le _)

/-! ### Run-level correctness -/

theorem inv_init (g : Grid) (mn mx : ℕ) :
    Inv g mn mx initLS.1 initLS.2 ∅ := by
  have hlk : ∀ s v, lookup [(startState, 0)] s = some v →
      s = startState ∧ v = 0 := by
    intro s v hv
    by_cases hs : startState = s <;> simp [lookup, hs] at hv <;> simp_all
  refine ⟨?_, ?_, ?_, ?_, ?_, rfl⟩
  · intro e he
    rw [show initLS.1 = [(0, startState)] from rfl, List.mem_singleton] at he
    subst he
    exact ⟨⟨[], rfl⟩, 0, rfl, le_rfl⟩
  · intro s v hv
    obtain ⟨rfl, rfl⟩ := hlk s v hv
    exact ⟨[], rfl⟩
  · intro s hs v hv
    obtain ⟨rfl, rfl⟩ := hlk s v hv
    exact List.mem_singleton_self _
  · intro s hs
    exact absurd hs (Set.not_mem_empty s)
  · intro s hs
    exact absurd hs (Set.not_mem_empty s)

theorem inv_rtg {g : Grid} {mn mx : ℕ} {ls ls' : LoopState}
    (h : Relation.ReflTransGen (Step g mn mx) ls ls') :
    ∀ D, Inv g mn mx ls.1 ls.2 D → ∃ D', Inv g mn mx ls'.1 ls'.2 D' := by
  induction h with
  | refl => exact fun D hD => ⟨D, hD⟩
  | tail hab hbc ih =>
    intro D hD
    obtain ⟨D', hD'⟩ := ih D hD
    cases hbc with
    | stale hpop hgoal hlk hlt => exact ⟨D', hD'.stale_step hpop hlk hlt⟩
    | relax hpop hgoal hlk hge => exact ⟨insert _ D', hD'.relax_step hpop hgoal hlk hge⟩

theorem ends_spec {g : Grid} {mn mx : ℕ} {ls : LoopState} {D : Set State}
    {r : SearchResult} (inv : Inv g mn mx ls.1 ls.2 D)
    (he : Ends g mn mx ls r) :
    (∀ c, r = .found c → IsLeast (goalCosts g mn mx) c) ∧
      (r = .panicked → goalCosts g mn mx = ∅) ∧ r ≠ .unwrapPanic := by
  cases he with
  | emptyHeap =>
    refine ⟨fun c hc => SearchResult.noConfusion hc, fun _ => ?_,
      fun hc => SearchResult.noConfusion hc⟩
    rw [Set.eq_empty_iff_forall_not_mem]
    rintro c ⟨π, t, hw, hg⟩
    rcases inv.cover hw with ⟨u, v, hu, hv, _⟩ | ⟨hD, _⟩
    · exact absurd (inv.fresh u hu v hv) (List.not_mem_nil _)
    · exact inv.noGoal t hD hg
  | goal hpop hgoal =>
    refine ⟨?_, fun hc => SearchResult.noConfusion hc,
      fun hc => SearchResult.noConfusion hc⟩
    rintro c hc
    obtain rfl := SearchResult.found.inj hc
    constructor
    · obtain ⟨⟨π, hπ⟩, -⟩ := inv.entries _ hpop.1
      exact ⟨π, _, hπ, hgoal⟩
    · rintro c' ⟨π, t, hw, hg⟩
      have htD : t ∉ D := fun h => inv.noGoal t h hg
      rcases inv.cover hw with ⟨u, v, hu, hv, hvle⟩ | ⟨hD, _⟩
      · have hin := inv.fresh u hu v hv
        have := hpop.2.1 (v, u) hin
        dsimp only at this
        omega
      · exact absurd hD htD
  | unwrapFail hpop hgoal hlk =>
    obtain ⟨-, v, hv, -⟩ := inv.entries _ hpop.1
    rw [hlk] at hv
    exact absurd hv (by simp)

theorem run_spec {g : Grid} {mn mx : ℕ} {ls : LoopState} {D : Set State}
    {r : SearchResult} (inv : Inv g mn mx ls.1 ls.2 D)
    (hrun : Run g mn mx ls r) :
    (∀ c, r = .found c → IsLeast (goalCosts g mn mx) c) ∧
      (r = .panicked → goalCosts g mn mx = ∅) ∧ r ≠ .unwrapPanic := by
  obtain ⟨ls', hrtg, hend⟩ := hrun
  obtain ⟨D', hD'⟩ := inv_rtg hrtg D inv
  exact ends_spec hD' hend

/-! ### The function realizes the run relation -/

theorem Run.head {g : Grid} {mn mx : ℕ} {a b : LoopState} {r : SearchResult}
    (hstep : Step g mn mx a b) (h : Run g mn mx b r) : Run g mn mx a r := by
  obtain ⟨ls', hrtg, hend⟩ := h
  exact ⟨ls', Relation.ReflTransGen.head hstep hrtg, hend⟩

theorem popOk_minEntry (e : ℕ × State) (rest : List (ℕ × State)) :
    PopOk (e :: rest) (minEntry e rest) ((e :: rest).erase (minEntry e rest)) :=
  ⟨minEntry_mem e rest, minEntry_le e rest, rfl⟩

theorem go_runs (g : Grid) (mn mx : ℕ) (heap : List (ℕ × State))
    (best : List (State × ℕ)) (hinv : ShapeInv g mx heap best) :
    Run g mn mx (heap, best) (go g mn mx heap best hinv) := by
  induction heap, best, hinv using go.induct g mn mx with
  | case1 best hinv hdup =>
    rw [go]
    exact ⟨([], best), Relation.ReflTransGen.refl, Ends.emptyHeap⟩
  | case2 best e rest hinv hgoal hdup =>
    rw [go]
    simp only [hgoal, if_true]
    exact ⟨(e :: rest, best), Relation.ReflTransGen.refl,
      Ends.goal (popOk_minEntry e rest) hgoal⟩
  | case3 best e rest hinv hgoal hlk hdup =>
    rw [go]
    simp only [hgoal, hlk, if_false]
    exact ⟨(e :: rest, best), Relation.ReflTransGen.refl,
      Ends.unwrapFail (popOk_minEntry e rest) hgoal hlk⟩
  | case4 best e rest hinv hgoal b hlk hlt hdup ih =>
    rw [go]
    simp only [hgoal, hlk, hlt, if_false, if_true]
    exact Run.head (Step.stale (popOk_minEntry e rest) hgoal hlk hlt) ih
  | case5 best e rest hinv hgoal b hlk hlt hdup ih =>
    rw [go]
    simp only [hgoal, hlk, hlt, if_false]
    exact Run.head (Step.relax (popOk_minEntry e rest) hgoal hlk hlt) ih

/-! ### Characterization of `heat_loss` -/

theorem heat_loss_runs {g : Grid} (mn mx : ℕ)
    (h1 : g.length ≠ 0) (h2 : (g.headD []).length ≠ 0) :
    Run g mn mx initLS (heat_loss g mn mx) := by
  rw [heat_loss, dif_neg (by push_neg; exact ⟨h1, h2⟩)]
  exact go_runs g mn mx _ _ _

theorem run_result {g : Grid} {mn mx : ℕ} {r : SearchResult}
    (h : Run g mn mx initLS r) :
    (goalCosts g mn mx = ∅ ∧ r = .panicked) ∨
      ∃ c, r = .found c ∧ IsLeast (goalCosts g mn mx) c := by
  have s := run_spec (inv_init g mn mx) h
  cases r with
  | found c => exact .inr ⟨c, rfl, s.1 c rfl⟩
  | panicked => exact .inl ⟨s.2.1 rfl, rfl⟩
  | unwrapPanic => exact absurd rfl s.2.2

theorem run_det {g : Grid} {mn mx : ℕ} {r₁ r₂ : SearchResult}
    (h₁ : Run g mn mx initLS r₁) (h₂ : Run g mn mx initLS r₂) : r₁ = r₂ := by
  rcases run_result h₁ with ⟨he₁, rfl⟩ | ⟨c₁, rfl, hl₁⟩ <;>
    rcases run_result h₂ with ⟨he₂, rfl⟩ | ⟨c₂, rfl, hl₂⟩
  · rfl
  · rw [he₁] at hl₂
    exact absurd hl₂.1 (Set.not_mem_empty _)
  · rw [he₂] at hl₁
    exact absurd hl₁.1 (Set.not_mem_empty _)
  · rw [hl₁.unique hl₂]

theorem heat_loss_found {g : Grid} {mn mx : ℕ}
    (h1 : g.length ≠ 0) (h2 : (g.headD []).length ≠ 0)
    (hne : (goalCosts g mn mx).Nonempty) :
    ∃ c, heat_loss g mn mx = .found c ∧ IsLeast (goalCosts g mn mx) c := by
  rcases run_result (heat_loss_runs mn mx h1 h2) with ⟨he, _⟩ | h
  · obtain ⟨c, hc⟩ := hne
    rw [he] at hc
    exact absurd hc (Set.not_mem_empty _)
  · exact h

theorem heat_loss_panicked {g : Grid} {mn mx : ℕ}
    (h1 : g.length ≠ 0) (h2 : (g.headD []).length ≠ 0)
    (hempty : goalCosts g mn mx = ∅) :
    heat_loss g mn mx = .panicked := by
  rcases run_result (heat_loss_runs mn mx h1 h2) with ⟨_, hr⟩ | ⟨c, hr, hl⟩
  · exact hr
  · rw [hempty] at hl
    exact absurd hl.1 (Set.not_mem_empty _)

/-! ### Corridor grids -/

theorem moveH {mn mx : ℕ} {row : Row} {k : ℕ} {d : Direction} {s' : State}
    (hm : moveState [row] mn mx ⟨(0, k), .East, k⟩ d = some s') :
    d = .East ∧ k < mx ∧ k + 1 ≤ row.length - 1 ∧
      s' = ⟨(0, k + 1), .East, k + 1⟩ := by
  obtain ⟨hcand, htm, hdir⟩ := moveState_some hm
  rcases mem_candidates.mp hcand with ⟨-, hd, hr⟩ | ⟨hlt, hd, hr⟩
  · exfalso
    have hd' : d = Direction.North ∨ d = Direction.South := by
      rcases hd with hd | hd
      · exact .inl hd
      · exact .inr hd
    rcases hd' with rfl | rfl <;> simp [try_move] at htm
  · have hd' : d = Direction.East := hd
    subst hd'
    simp only [try_move] at htm
    split_ifs at htm with hkc
    · have hco := Option.some.inj htm
      have hkc' : k < row.length - 1 := hkc
      obtain ⟨co, dir, run⟩ := s'
      obtain rfl : run = k + 1 := hr
      obtain rfl : dir = Direction.East := hdir
      obtain rfl : co = (0, k + 1) := hco.symm
      exact ⟨rfl, hlt, by omega, rfl⟩

theorem walkH {mn mx : ℕ} {row : Row} {π : List Direction} {t : State} {c : ℕ}
    (hw : walkPath [row] mn mx startState π = some (t, c)) :
    ∃ k, π = List.replicate k Direction.East ∧ t = ⟨(0, k), .East, k⟩ ∧
      (k = 0 ∨ k ≤ mx) ∧ k ≤ row.length - 1 ∧
      c = ((row.drop 1).take k).sum := by
  induction π using List.reverseRecOn generalizing t c with
  | nil =>
    obtain ⟨rfl, rfl⟩ : startState = t ∧ 0 = c := by
      simpa [walkPath, Prod.ext_iff] using hw
    exact ⟨0, rfl, rfl, .inl rfl, Nat.zero_le _, rfl⟩
  | append_singleton π d ih =>
    obtain ⟨u, c₁, hu, hm, rfl⟩ := walkPath_snoc.mp hw
    obtain ⟨k, rfl, rfl, hkmx, hkN, rfl⟩ := ih hu
    obtain ⟨rfl, hlt, hle, rfl⟩ := moveH hm
    refine ⟨k + 1, (List.replicate_succ' _ _).symm, rfl, .inr (by omega), by omega, ?_⟩
    have hcell : cellCost [row] (0, k + 1) = (row.drop 1).getD k 0 := by
      simp [cellCost, List.getD_eq_getElem?_getD, List.getElem?_drop]
    rw [hcell]
    have hklen : k < (row.drop 1).length := by
      rw [List.length_drop]
      omega
    rw [List.sum_take_succ _ _ hklen, List.getD_eq_getElem?_getD,
      List.getElem?_eq_getElem hklen]
    rfl

theorem walkH_replicate {mn mx : ℕ} {row : Row} (k : ℕ)
    (hk1 : k ≤ row.length - 1) (hk2 : k = 0 ∨ k ≤ mx) :
    walkPath [row] mn mx startState (List.replicate k Direction.East) =
      some (⟨(0, k), .East, k⟩, ((row.drop 1).take k).sum) := by
  induction k with
  | zero => rfl
  | succ k ih =>
    have hk2' : k = 0 ∨ k ≤ mx := by omega
    have hklen : k < (row.drop 1).length := by
      rw [List.length_drop]
      omega
    rw [List.replicate_succ']
    refine walkPath_snoc.mpr ⟨⟨(0, k), .East, k⟩, ((row.drop 1).take k).sum,
      ih (by omega) hk2', ?_, ?_⟩
    · have hkmx : k < mx := by omega
      have hkN : k < row.length - 1 := by omega
      simp [moveState, try_move, hkmx, hkN]
    · have hcell : cellCost [row] (0, k + 1) = (row.drop 1).getD k 0 := by
        simp [cellCost, List.getD_eq_getElem?_getD, List.getElem?_drop]
      rw [hcell, List.sum_take_succ _ _ hklen, List.getD_eq_getElem?_getD,
        List.getElem?_eq_getElem hklen]
      rfl

theorem goalCostsH_found {mn mx : ℕ} {row : Row} (hN : row ≠ [])
    (hmn : mn ≤ row.length - 1) (hmx : row.length - 1 ≤ mx) :
    goalCosts [row] mn mx = {(row.drop 1).sum} := by
  have hN1 : 1 ≤ row.length := List.length_pos.mpr hN
  ext c
  simp only [Set.mem_singleton_iff]
  constructor
  · rintro ⟨π, t, hw, hg⟩
    obtain ⟨k, rfl, rfl, hkmx, hkN, rfl⟩ := walkH hw
    obtain ⟨hco, -⟩ := hg
    have hk : k = row.length - 1 := by
      have : (0, k) = ((1 : ℕ) - 1, row.length - 1) := by
        simpa [isGoal] using hco
      simpa [Prod.ext_iff] using this
    subst hk
    rw [show (row.drop 1).take (row.length - 1) = row.drop 1 by
      apply List.take_of_length_le
      rw [List.length_drop]]
  · rintro rfl
    refine ⟨List.replicate (row.length - 1) Direction.East,
      ⟨(0, row.length - 1), .East, row.length - 1⟩, ?_, ?_, hmn⟩
    · rw [walkH_replicate (row.length - 1) le_rfl (.inr hmx),
        show (row.drop 1).take (row.length - 1) = row.drop 1 by
          apply List.take_of_length_le
          rw [List.length_drop]]
    · show ((0 : ℕ), row.length - 1) = (List.length [row] - 1, (List.headD [row] []).length - 1)
      simp

theorem goalCostsH_empty {mn mx : ℕ} {row : Row}
    (h : mx < row.length - 1 ∨ row.length - 1 < mn) :
    goalCosts [row] mn mx = ∅ := by
  rw [Set.eq_empty_iff_forall_not_mem]
  rintro c ⟨π, t, hw, hg⟩
  obtain ⟨k, rfl, rfl, hkmx, hkN, rfl⟩ := walkH hw
  obtain ⟨hco, hrun⟩ := hg
  have hk : k = row.length - 1 := by
    have : (0, k) = (List.length [row] - 1, (List.headD [row] []).length - 1) := hco
    simpa [Prod.ext_iff] using this
  subst hk
  have hrun' : mn ≤ row.length - 1 := hrun
  rcases h with h | h
  · omega
  · omega

/-- The state reached after `k` South moves in a one-column grid:
the synthetic start state for `k = 0`, else `((k, 0), South, k)`. -/
def colState (k : ℕ) : State :=
  if k = 0 then startState else ⟨(k, 0), .South, k⟩

theorem colState_run (k : ℕ) : (colState k).run_length = k := by
  unfold colState
  split_ifs with h
  · rw [h]
    rfl
  · rfl

theorem colState_coords (k : ℕ) : (colState k).coords = (k, 0) := by
  unfold colState
  split_ifs with h
  · rw [h]
    rfl
  · rfl

theorem moveV {mn mx : ℕ} {c0 : ℕ} {cs : List ℕ} {k : ℕ} {d : Direction}
    {s' : State}
    (hm : moveState ((c0 :: cs).map fun v => [v]) mn mx (colState k) d = some s') :
    d = .South ∧ s' = colState (k + 1) ∧ k + 1 ≤ cs.length ∧
      (k = 0 ∨ k < mx) := by
  obtain ⟨hcand, htm, hdir⟩ := moveState_some hm
  have hlen : ((c0 :: cs).map fun v => [v]).length - 1 = cs.length := by
    simp
  by_cases hk : k = 0
  · subst hk
    rw [show colState 0 = startState from rfl] at hcand htm
    rcases mem_candidates.mp hcand with ⟨-, hd, hr⟩ | ⟨-, hd, -⟩
    · have hd' : d = Direction.North ∨ d = Direction.South := by
        rcases hd with hd | hd
        · exact .inl hd
        · exact .inr hd
      rcases hd' with rfl | rfl
      · exfalso
        simp [try_move, startState] at htm
      · simp only [try_move, hlen] at htm
        split_ifs at htm with hcs
        have hco := Option.some.inj htm
        obtain ⟨co, dir, run⟩ := s'
        obtain rfl : run = 1 := hr
        obtain rfl : dir = Direction.South := hdir
        obtain rfl : co = (1, 0) := hco.symm
        exact ⟨rfl, rfl, by omega, .inl rfl⟩
    · exfalso
      have hd' : d = Direction.East := hd
      subst hd'
      simp [try_move, startState] at htm
  · rw [show colState k = ⟨(k, 0), .South, k⟩ from if_neg hk] at hcand htm
    rcases mem_candidates.mp hcand with ⟨-, hd, -⟩ | ⟨hlt, hd, hr⟩
    · exfalso
      have hd' : d = Direction.East ∨ d = Direction.West := by
        rcases hd with hd | hd
        · exact .inl hd
        · exact .inr hd
      rcases hd' with rfl | rfl <;> simp [try_move] at htm
    · have hd' : d = Direction.South := hd
      subst hd'
      simp only [try_move, hlen] at htm
      split_ifs at htm with hcs
      have hco := Option.some.inj htm
      obtain ⟨co, dir, run⟩ := s'
      obtain rfl : run = k + 1 := hr
      obtain rfl : dir = Direction.South := hdir
      obtain rfl : co = (k + 1, 0) := hco.symm
      have hne : k + 1 ≠ 0 := by omega
      refine ⟨rfl, ?_, by omega, .inr hlt⟩
      rw [show colState (k + 1) = ⟨(k + 1, 0), .South, k + 1⟩ from if_neg hne]

theorem cellCostV {c0 : ℕ} {cs : List ℕ} {k : ℕ} (hk : k < cs.length) :
    cellCost ((c0 :: cs).map fun v => [v]) (k + 1, 0) = cs.getD k 0 := by
  unfold cellCost
  have : ((c0 :: cs).map fun v => [v]).getD (k + 1) [] = [cs.getD k 0] := by
    rw [List.getD_eq_getElem?_getD, List.getElem?_map,
      List.getElem?_cons_succ, List.getElem?_eq_getElem hk]
    rw [List.getD_eq_getElem?_getD, List.getElem?_eq_getElem hk]
    rfl
  rw [this]
  rfl

theorem walkV {mn mx : ℕ} {c0 : ℕ} {cs : List ℕ} {π : List Direction}
    {t : State} {c : ℕ}
    (hw : walkPath ((c0 :: cs).map fun v => [v]) mn mx startState π = some (t, c)) :
    ∃ k, π = List.replicate k Direction.South ∧ t = colState k ∧
      (k ≤ 1 ∨ k ≤ mx) ∧ k ≤ cs.length ∧ c = (cs.take k).sum := by
  induction π using List.reverseRecOn generalizing t c with
  | nil =>
    obtain ⟨rfl, rfl⟩ : startState = t ∧ 0 = c := by
      simpa [walkPath, Prod.ext_iff] using hw
    exact ⟨0, rfl, rfl, .inl (by omega), Nat.zero_le _, rfl⟩
  | append_singleton π d ih =>
    obtain ⟨u, c₁, hu, hm, rfl⟩ := walkPath_snoc.mp hw
    obtain ⟨k, rfl, rfl, hkmx, hkN, rfl⟩ := ih hu
    obtain ⟨rfl, rfl, hle, hcon⟩ := moveV hm
    have hklen : k < cs.length := by omega
    refine ⟨k + 1, (List.replicate_succ' _ _).symm, rfl, by omega, by omega, ?_⟩
    rw [colState_coords, cellCostV hklen, List.sum_take_succ _ _ hklen,
      List.getD_eq_getElem?_getD, List.getElem?_eq_getElem hklen]
    rfl

theorem walkV_replicate {mn mx : ℕ} {c0 : ℕ} {cs : List ℕ} (k : ℕ)
    (hk1 : k ≤ cs.length) (hk2 : k ≤ 1 ∨ k ≤ mx) :
    walkPath ((c0 :: cs).map fun v => [v]) mn mx startState
        (List.replicate k Direction.South) =
      some (colState k, (cs.take k).sum) := by
  induction k with
  | zero => rfl
  | succ k ih =>
    have hk2' : k ≤ 1 ∨ k ≤ mx := by omega
    have hklen : k < cs.length := by omega
    rw [List.replicate_succ']
    refine walkPath_snoc.mpr ⟨colState k, (cs.take k).sum,
      ih (by omega) hk2', ?_, ?_⟩
    · -- the `k`-th South move is legal
      by_cases hk : k = 0
      · subst hk
        rw [show colState 0 = startState from rfl]
        have hcs : (0 : ℕ) < cs.length := by omega
        rw [show colState 1 = ⟨(1, 0), .South, 1⟩ from rfl]
        simp [moveState, try_move, startState, hcs,
          Direction.turn_left, Direction.turn_right]
      · have hkm : k < mx := by omega
        rw [show colState k = ⟨(k, 0), .South, k⟩ from if_neg hk]
        have hne : k + 1 ≠ 0 := by omega
        rw [show colState (k + 1) = ⟨(k + 1, 0), .South, k + 1⟩ from if_neg hne]
        simp [moveState, try_move, hkm, hklen,
          Direction.turn_left, Direction.turn_right]
    · rw [colState_coords, cellCostV hklen, List.sum_take_succ _ _ hklen,
        List.getD_eq_getElem?_getD, List.getElem?_eq_getElem hklen]
      rfl

theorem goalCostsV_found {mn mx : ℕ} {c0 : ℕ} {cs : List ℕ}
    (hmn : mn ≤ cs.length) (hmx : cs.length ≤ max mx 1) :
    goalCosts ((c0 :: cs).map fun v => [v]) mn mx = {cs.sum} := by
  have htarget : (((c0 :: cs).map fun v => [v]).length - 1,
      ((((c0 :: cs).map fun v => [v]).headD []).length - 1)) = (cs.length, 0) := by
    simp
  ext c
  simp only [Set.mem_singleton_iff]
  constructor
  · rintro ⟨π, t, hw, hg⟩
    obtain ⟨k, rfl, rfl, hkmx, hkN, rfl⟩ := walkV hw
    obtain ⟨hco, -⟩ := hg
    rw [colState_coords, htarget] at hco
    obtain rfl : k = cs.length := by
      simpa [Prod.ext_iff] using hco
    rw [List.take_length]
  · rintro rfl
    refine ⟨List.replicate cs.length Direction.South, colState cs.length, ?_, ?_, ?_⟩
    · rw [walkV_replicate cs.length le_rfl (by omega), List.take_length]
    · exact (colState_coords cs.length).trans htarget.symm
    · rw [colState_run]
      exact hmn

theorem goalCostsV_empty {mn mx : ℕ} {c0 : ℕ} {cs : List ℕ}
    (h : max mx 1 < cs.length ∨ cs.length < mn) :
    goalCosts ((c0 :: cs).map fun v => [v]) mn mx = ∅ := by
  have htarget : (((c0 :: cs).map fun v => [v]).length - 1,
      ((((c0 :: cs).map fun v => [v]).headD []).length - 1)) = (cs.length, 0) := by
    simp
  rw [Set.eq_empty_iff_forall_not_mem]
  rintro c ⟨π, t, hw, hg⟩
  obtain ⟨k, rfl, rfl, hkmx, hkN, rfl⟩ := walkV hw
  obtain ⟨hco, hrun⟩ := hg
  rw [colState_coords, htarget] at hco
  obtain rfl : k = cs.length := by
    simpa [Prod.ext_iff] using hco
  rw [colState_run] at hrun
  rcases h with h | h <;> omega

/-! ### Unconstrained walks -/

theorem specWalk_append (g : Grid) (p : Coords) (xs ys : List Direction) :
    specWalk g p (xs ++ ys) =
      (specWalk g p xs).bind fun tc =>
        (specWalk g tc.1 ys).map fun uc => (uc.1, tc.2 + uc.2) := by
  induction xs generalizing p with
  | nil => simp [specWalk]
  | cons d ds ih =>
    simp only [List.cons_append, specWalk, List.append_eq]
    cases try_move g p d with
    | none => simp
    | some q =>
      simp only [Option.some_bind]
      rw [ih q]
      cases hw : specWalk g q ds with
      | none => simp
      | some tc =>
        simp only [Option.some_bind]
        cases hw2 : specWalk g tc.1 ys with
        | none => simp [hw2]
        | some uc => simp [hw2, Nat.add_assoc]

theorem specWalk_mem {g : Grid} :
    ∀ {π : List Direction} {p t : Coords} {c : ℕ},
      p.1 < g.length → p.2 < (g.headD []).length →
      specWalk g p π = some (t, c) →
      t.1 < g.length ∧ t.2 < (g.headD []).length := by
  intro π
  induction π with
  | nil =>
    intro p t c h1 h2 hw
    obtain ⟨rfl, -⟩ : p = t ∧ 0 = c := by
      simpa [specWalk, Prod.ext_iff] using hw
    exact ⟨h1, h2⟩
  | cons d ds ih =>
    intro p t c h1 h2 hw
    cases htm : try_move g p d with
    | none => simp [specWalk, htm] at hw
    | some q =>
      simp only [specWalk, htm, Option.some_bind] at hw
      cases hys : specWalk g q ds with
      | none => rw [hys] at hw; exact absurd hw (by simp)
      | some tc =>
        rw [hys] at hw
        obtain ⟨hq1, hq2⟩ := try_move_mem h1 h2 htm
        obtain ⟨rfl, -⟩ : tc.1 = t ∧ cellCost g q + tc.2 = c := by
          simpa [Prod.ext_iff] using hw
        exact ih hq1 hq2 hys

theorem try_move_opposite {g : Grid} {p q : Coords} {d : Direction}
    (h1 : p.1 < g.length) (h2 : p.2 < (g.headD []).length)
    (htm : try_move g p d = some q) :
    try_move g q d.opposite = some p := by
  cases d <;> simp only [try_move] at htm <;> split_ifs at htm with h <;>
    obtain rfl := (Option.some.inj htm).symm <;>
    simp [Direction.opposite, try_move, Prod.ext_iff,
      List.headD_eq_head?_getD] at h2 ⊢ <;>
    omega

theorem exists_break {α : Type} {R : α → α → Prop} :
    ∀ {l : List α}, ¬ List.Chain' R l →
      ∃ xs a b ys, l = xs ++ a :: b :: ys ∧ ¬ R a b := by
  intro l
  induction l with
  | nil => intro h; exact absurd List.chain'_nil h
  | cons a l ih =>
    intro h
    cases l with
    | nil => exact absurd (List.chain'_singleton a) h
    | cons b l' =>
      rw [List.chain'_cons] at h
      by_cases hab : R a b
      · have h2 : ¬ List.Chain' R (b :: l') := fun hc => h ⟨hab, hc⟩
        obtain ⟨xs, x, y, ys, heq, hxy⟩ := ih h2
        exact ⟨a :: xs, x, y, ys, by rw [heq]; rfl, hxy⟩
      · exact ⟨[], a, b, l', rfl, hab⟩

theorem specWalk_remove_rev {g : Grid} {p t : Coords} {c : ℕ}
    {xs ys : List Direction} {d : Direction}
    (hp1 : p.1 < g.length) (hp2 : p.2 < (g.headD []).length)
    (hw : specWalk g p (xs ++ d :: d.opposite :: ys) = some (t, c)) :
    ∃ c' ≤ c, specWalk g p (xs ++ ys) = some (t, c') := by
  rw [specWalk_append] at hw
  cases hq : specWalk g p xs with
  | none => rw [hq] at hw; exact absurd hw (by simp)
  | some qc =>
    obtain ⟨q, c₀⟩ := qc
    rw [hq] at hw
    simp only [Option.some_bind] at hw
    obtain ⟨hq1, hq2⟩ := specWalk_mem hp1 hp2 hq
    cases htm : try_move g q d with
    | none => simp [specWalk, htm] at hw
    | some q₁ =>
      have hret : try_move g q₁ d.opposite = some q :=
        try_move_opposite hq1 hq2 htm
      simp only [specWalk, htm, hret, Option.some_bind] at hw
      cases hys : specWalk g q ys with
      | none => rw [hys] at hw; exact absurd hw (by simp)
      | some tc =>
        rw [hys] at hw
        obtain ⟨ht, hc⟩ : tc.1 = t ∧
            c₀ + (cellCost g q₁ + (cellCost g q + tc.2)) = c := by
          simpa [Prod.ext_iff] using hw
        refine ⟨c₀ + tc.2, by omega, ?_⟩
        rw [specWalk_append, hq]
        simp [hys, ht]

theorem exists_chain_walk {g : Grid} {t : Coords}
    (hg1 : 0 < g.length) (hg2 : 0 < (g.headD []).length) :
    ∀ (π : List Direction) (c : ℕ), specWalk g (0, 0) π = some (t, c) →
      ∃ π' c', c' ≤ c ∧ List.Chain' (fun a b => b ≠ a.opposite) π' ∧
        specWalk g (0, 0) π' = some (t, c') := by
  suffices h : ∀ (n : ℕ) (π : List Direction) (c : ℕ), π.length ≤ n →
      specWalk g (0, 0) π = some (t, c) →
      ∃ π' c', c' ≤ c ∧ List.Chain' (fun a b => b ≠ a.opposite) π' ∧
        specWalk g (0, 0) π' = some (t, c') by
    exact fun π c hw => h π.length π c le_rfl hw
  intro n
  induction n with
  | zero =>
    intro π c hlen hw
    obtain rfl : π = [] := List.length_eq_zero.mp (Nat.le_zero.mp hlen)
    exact ⟨[], c, le_rfl, List.chain'_nil, hw⟩
  | succ n ihn =>
    intro π c hlen hw
    by_cases hch : List.Chain' (fun a b => b ≠ a.opposite) π
    · exact ⟨π, c, le_rfl, hch, hw⟩
    · obtain ⟨xs, a, b, ys, rfl, hab⟩ := exists_break hch
      obtain rfl : b = a.opposite := not_not.mp hab
      obtain ⟨c', hc', hw'⟩ := specWalk_remove_rev hg1 hg2 hw
      have hlen' : (xs ++ ys).length ≤ n := by
        simp only [List.length_append, List.length_cons] at hlen ⊢
        omega
      obtain ⟨π', c'', ha, hb, hc⟩ := ihn (xs ++ ys) c' hlen' hw'
      exact ⟨π', c'', ha.trans hc', hb, hc⟩

/-- Room behind the walker: an upper bound for the length of the current
straight run ending at `p` in direction `d` that stays on the grid. -/
def backRoom (g : Grid) (d : Direction) (p : Coords) : ℕ :=
  match d with
  | .North => g.length - 1 - p.1
  | .South => p.1
  | .East => p.2
  | .West => (g.headD []).length - 1 - p.2

theorem backRoom_move {g : Grid} {d : Direction} {p q : Coords}
    (h1 : p.1 < g.length) (h2 : p.2 < (g.headD []).length)
    (htm : try_move g p d = some q) :
    backRoom g d q = backRoom g d p + 1 ∧
      (backRoom g d q ≤ g.length - 1 ∨
        backRoom g d q ≤ (g.headD []).length - 1) := by
  cases d <;> simp only [try_move] at htm <;> split_ifs at htm with h <;>
    obtain rfl := (Option.some.inj htm).symm <;>
    unfold backRoom <;> dsimp only <;> constructor
  · omega
  · left; omega
  · omega
  · left; omega
  · omega
  · right; omega
  · omega
  · right; omega

/-- A non-reversing unconstrained walk is automaton-legal when
`min_run = 0` and `max_run` covers every in-grid straight run. -/
theorem chain_walk_legal {g : Grid} {mx : ℕ}
    (hmxr : g.length - 1 ≤ mx) (hmxc : (g.headD []).length - 1 ≤ mx) :
    ∀ (π : List Direction) (s : State) (t : Coords) (c : ℕ),
      s.coords.1 < g.length → s.coords.2 < (g.headD []).length →
      s.run_length ≤ backRoom g s.direction s.coords →
      List.Chain' (fun a b => b ≠ a.opposite) (s.direction :: π) →
      specWalk g s.coords π = some (t, c) →
      ∃ t' : State, walkPath g 0 mx s π = some (t', c) ∧ t'.coords = t := by
  intro π
  induction π with
  | nil =>
    intro s t c _ _ _ _ hw
    obtain ⟨rfl, rfl⟩ : s.coords = t ∧ 0 = c := by
      simpa [specWalk, Prod.ext_iff] using hw
    exact ⟨s, rfl, rfl⟩
  | cons d ds ih =>
    intro s t c h1 h2 hroom hch hw
    cases htm : try_move g s.coords d with
    | none => simp [specWalk, htm] at hw
    | some q =>
      simp only [specWalk, htm, Option.some_bind] at hw
      cases hys : specWalk g q ds with
      | none => rw [hys] at hw; exact absurd hw (by simp)
      | some tc =>
        rw [hys] at hw
        obtain ⟨ht, hc⟩ : tc.1 = t ∧ cellCost g q + tc.2 = c := by
          simpa [Prod.ext_iff] using hw
        obtain ⟨hq1, hq2⟩ := try_move_mem h1 h2 htm
        obtain ⟨hchd, hch'⟩ := List.chain'_cons.mp hch
        obtain ⟨hgrow, hbound⟩ := backRoom_move h1 h2 htm
        -- the move is legal: determine the emitted run length
        rcases Direction.eq_or_turn_or_opposite s.direction d
          with hd | hd | hd | hd
        · -- straight
          have hlt : s.run_length < mx := by
            rcases hd with rfl
            rcases hbound with hb | hb <;> omega
          have hms : moveState g 0 mx s d = some ⟨q, d, s.run_length + 1⟩ := by
            unfold moveState
            rw [if_pos hd, if_pos hlt, htm]
          have hroom' : s.run_length + 1 ≤ backRoom g d q := by
            rcases hd with rfl
            omega
          obtain ⟨t', hwp, hco⟩ := ih ⟨q, d, s.run_length + 1⟩ tc.1 tc.2
            hq1 hq2 hroom' hch' hys
          refine ⟨t', ?_, hco.trans ht⟩
          rw [walkPath, hms, Option.some_bind, hwp]
          simp [hc]
        · -- left turn
          have hne : ¬ d = s.direction := by
            rw [hd]
            exact s.direction.turn_left_ne
          have hms : moveState g 0 mx s d = some ⟨q, d, 1⟩ := by
            unfold moveState
            rw [if_neg hne, if_pos (Or.inl hd), if_pos (Or.inr (Nat.zero_le _)),
              htm]
          have hroom1 : (1 : ℕ) ≤ backRoom g d q := by omega
          obtain ⟨t', hwp, hco⟩ := ih ⟨q, d, 1⟩ tc.1 tc.2
            hq1 hq2 hroom1 hch' hys
          refine ⟨t', ?_, hco.trans ht⟩
          rw [walkPath, hms, Option.some_bind, hwp]
          simp [hc]
        · -- right turn
          have hne : ¬ d = s.direction := by
            rw [hd]
            exact s.direction.turn_right_ne
          have hms : moveState g 0 mx s d = some ⟨q, d, 1⟩ := by
            unfold moveState
            rw [if_neg hne, if_pos (Or.inr hd), if_pos (Or.inr (Nat.zero_le _)),
              htm]
          have hroom1 : (1 : ℕ) ≤ backRoom g d q := by omega
          obtain ⟨t', hwp, hco⟩ := ih ⟨q, d, 1⟩ tc.1 tc.2
            hq1 hq2 hroom1 hch' hys
          refine ⟨t', ?_, hco.trans ht⟩
          rw [walkPath, hms, Option.some_bind, hwp]
          simp [hc]
        · -- reversal, excluded by the chain condition
          exact absurd hd hchd

/-- Every automaton-legal path is an unconstrained walk of the same cost. -/
theorem walkPath_to_specWalk {g : Grid} {mn mx : ℕ} :
    ∀ {π : List Direction} {s t : State} {c : ℕ},
      walkPath g mn mx s π = some (t, c) →
      specWalk g s.coords π = some (t.coords, c) := by
  intro π
  induction π with
  | nil =>
    intro s t c hw
    obtain ⟨rfl, rfl⟩ : s = t ∧ 0 = c := by
      simpa [walkPath, Prod.ext_iff] using hw
    rfl
  | cons d ds ih =>
    intro s t c hw
    cases hm : moveState g mn mx s d with
    | none => simp [walkPath, hm] at hw
    | some s' =>
      simp only [walkPath, hm, Option.some_bind] at hw
      cases hys : walkPath g mn mx s' ds with
      | none => rw [hys] at hw; exact absurd hw (by simp)
      | some tc =>
        rw [hys] at hw
        obtain ⟨ht, hc⟩ : tc.1 = t ∧ cellCost g s'.coords + tc.2 = c := by
          simpa [Prod.ext_iff] using hw
        obtain ⟨-, htm, -⟩ := moveState_some hm
        have := ih hys
        obtain ⟨u, cu⟩ := tc
        simp only [specWalk, htm, Option.some_bind, this]
        simp only at ht hc
        rw [ht] at this ⊢
        simp [hc]

theorem specWalk_east_exists {g : Grid} :
    ∀ (k : ℕ) (p : Coords), p.2 + k ≤ (g.headD []).length - 1 →
      ∃ c, specWalk g p (List.replicate k Direction.East) =
        some ((p.1, p.2 + k), c) := by
  intro k
  induction k with
  | zero => exact fun p _ => ⟨0, rfl⟩
  | succ k ih =>
    intro p hp
    have htm : try_move g p .East = some (p.1, p.2 + 1) := by
      simp only [try_move]
      rw [if_pos (by omega)]
    obtain ⟨c, hc⟩ := ih (p.1, p.2 + 1) (by dsimp only; omega)
    refine ⟨cellCost g (p.1, p.2 + 1) + c, ?_⟩
    rw [List.replicate_succ]
    simp only [specWalk, htm, Option.some_bind, hc, Option.map_some']
    have he : p.2 + 1 + k = p.2 + (k + 1) := by omega
    rw [he]

theorem specWalk_south_exists {g : Grid} :
    ∀ (k : ℕ) (p : Coords), p.1 + k ≤ g.length - 1 →
      ∃ c, specWalk g p (List.replicate k Direction.South) =
        some ((p.1 + k, p.2), c) := by
  intro k
  induction k with
  | zero => exact fun p _ => ⟨0, rfl⟩
  | succ k ih =>
    intro p hp
    have htm : try_move g p .South = some (p.1 + 1, p.2) := by
      simp only [try_move]
      rw [if_pos (by omega)]
    obtain ⟨c, hc⟩ := ih (p.1 + 1, p.2) (by dsimp only; omega)
    refine ⟨cellCost g (p.1 + 1, p.2) + c, ?_⟩
    rw [List.replicate_succ]
    simp only [specWalk, htm, Option.some_bind, hc, Option.map_some']
    have he : p.1 + 1 + k = p.1 + (k + 1) := by omega
    rw [he]

theorem spec_target_exists {g : Grid} (h1 : g.length ≠ 0)
    (h2 : (g.headD []).length ≠ 0) :
    ∃ π c, specWalk g (0, 0) π =
      some ((g.length - 1, (g.headD []).length - 1), c) := by
  obtain ⟨c₁, hc₁⟩ := @specWalk_east_exists g ((g.headD []).length - 1) (0, 0)
    (by dsimp only; omega)
  obtain ⟨c₂, hc₂⟩ := @specWalk_south_exists g (g.length - 1)
    (0, (g.headD []).length - 1) (by dsimp only; omega)
  refine ⟨List.replicate ((g.headD []).length - 1) Direction.East ++
    List.replicate (g.length - 1) Direction.South, c₁ + c₂, ?_⟩
  dsimp only at hc₁ hc₂
  rw [specWalk_append, hc₁]
  rw [Nat.zero_add] at hc₂ ⊢
  simp only [Option.some_bind, hc₂, Option.map_some']

/-! ### Shape congruence and cost monotonicity -/

theorem try_move_congr {g g' : Grid} (hlen : g'.length = g.length)
    (hhead : (g'.headD []).length = (g.headD []).length) (p : Coords)
    (d : Direction) : try_move g' p d = try_move g p d := by
  cases d <;> simp only [try_move, hlen, hhead]

theorem moveState_congr {g g' : Grid} {mn mx : ℕ}
    (hlen : g'.length = g.length)
    (hhead : (g'.headD []).length = (g.headD []).length) (s : State)
    (d : Direction) : moveState g' mn mx s d = moveState g mn mx s d := by
  unfold moveState
  rw [try_move_congr hlen hhead]

theorem walkPath_dominate {g g' : Grid} {mn mx : ℕ}
    (hlen : g'.length = g.length)
    (hhead : (g'.headD []).length = (g.headD []).length)
    (hcell : ∀ p, cellCost g p ≤ cellCost g' p) :
    ∀ {π : List Direction} {s t : State} {c : ℕ},
      walkPath g mn mx s π = some (t, c) →
      ∃ c', walkPath g' mn mx s π = some (t, c') ∧ c ≤ c' := by
  intro π
  induction π with
  | nil =>
    intro s t c hw
    obtain ⟨rfl, rfl⟩ : s = t ∧ 0 = c := by
      simpa [walkPath, Prod.ext_iff] using hw
    exact ⟨0, rfl, le_rfl⟩
  | cons d ds ih =>
    intro s t c hw
    cases hm : moveState g mn mx s d with
    | none => simp [walkPath, hm] at hw
    | some s' =>
      simp only [walkPath, hm, Option.some_bind] at hw
      cases hys : walkPath g mn mx s' ds with
      | none => rw [hys] at hw; exact absurd hw (by simp)
      | some tc =>
        rw [hys] at hw
        obtain ⟨ht, hc⟩ : tc.1 = t ∧ cellCost g s'.coords + tc.2 = c := by
          simpa [Prod.ext_iff] using hw
        obtain ⟨c', hw', hle⟩ := ih hys
        refine ⟨cellCost g' s'.coords + c', ?_, ?_⟩
        · rw [walkPath, moveState_congr hlen hhead, hm, Option.some_bind, hw']
          simp [ht]
        · have := hcell s'.coords
          omega

theorem isGoal_congr {g g' : Grid} {mn : ℕ}
    (hlen : g'.length = g.length)
    (hhead : (g'.headD []).length = (g.headD []).length) (t : State) :
    isGoal g' mn t ↔ isGoal g mn t := by
  unfold isGoal
  rw [hlen, hhead]

/-! ### `updateCell` facts -/

theorem updateCell_length (g : Grid) (i j v : ℕ) :
    (updateCell g i j v).length = g.length := by
  simp [updateCell]

theorem updateCell_headD (g : Grid) (i j v : ℕ) :
    ((updateCell g i j v).headD []).length = (g.headD []).length := by
  unfold updateCell
  cases g with
  | nil => rfl
  | cons r t =>
    cases i with
    | zero => simp [List.set]
    | succ i => rfl

theorem getD_set_le {l : List ℕ} {j v : ℕ} (hv : l.getD j 0 ≤ v) (n : ℕ) :
    l.getD n 0 ≤ (l.set j v).getD n 0 := by
  induction l generalizing j n with
  | nil => simp
  | cons a t ih =>
    cases j with
    | zero =>
      cases n with
      | zero => simpa using hv
      | succ n => simp [List.set]
    | succ j =>
      cases n with
      | zero => simp [List.set]
      | succ n => simpa [List.set] using ih (by simpa using hv) n

theorem cellCost_updateCell_le {g : Grid} {i j v : ℕ}
    (hv : cellCost g (i, j) ≤ v) (p : Coords) :
    cellCost g p ≤ cellCost (updateCell g i j v) p := by
  obtain ⟨a, b⟩ := p
  unfold cellCost at hv ⊢
  unfold updateCell
  dsimp only at hv ⊢
  induction g generalizing i a with
  | nil => simp
  | cons r t ih =>
    cases i with
    | zero =>
      cases a with
      | zero => simpa [List.set] using getD_set_le (by simpa using hv) b
      | succ a => simp [List.set]
    | succ i =>
      cases a with
      | zero => simp [List.set]
      | succ a => simpa [List.set] using ih (by simpa using hv) a

/-! ### Further helpers for the claim theorems -/

/-- The rectangularity property the specification's claims assume of a grid
(the source never checks it). -/
def Rectangular (g : Grid) : Prop :=
  ∀ r ∈ g, r.length = (g.headD []).length

instance (g : Grid) : Decidable (Rectangular g) := by
  unfold Rectangular
  infer_instance

theorem heat_loss_degenerate {g : Grid} {mn mx : ℕ}
    (h : g.length = 0 ∨ (g.headD []).length = 0) :
    heat_loss g mn mx = .panicked := by
  rw [heat_loss, dif_pos h]

/-- Success of `walkPath` depends only on the grid's shape, and the final
state agrees.  (The cost may differ; `walkPath_dominate` bounds it.) -/
theorem walkPath_shape {g g' : Grid} {mn mx : ℕ}
    (hlen : g'.length = g.length)
    (hhead : (g'.headD []).length = (g.headD []).length) :
    ∀ {π : List Direction} {s t : State} {c' : ℕ},
      walkPath g' mn mx s π = some (t, c') →
      ∃ c₀, walkPath g mn mx s π = some (t, c₀) := by
  intro π
  induction π with
  | nil =>
    intro s t c' hw
    obtain ⟨rfl, -⟩ : s = t ∧ 0 = c' := by
      simpa [walkPath, Prod.ext_iff] using hw
    exact ⟨0, rfl⟩
  | cons d ds ih =>
    intro s t c' hw
    cases hm : moveState g' mn mx s d with
    | none => simp [walkPath, hm] at hw
    | some s' =>
      simp only [walkPath, hm, Option.some_bind] at hw
      cases hys : walkPath g' mn mx s' ds with
      | none => rw [hys] at hw; exact absurd hw (by simp)
      | some tc =>
        rw [hys] at hw
        obtain ⟨ht, -⟩ : tc.1 = t ∧ cellCost g' s'.coords + tc.2 = c' := by
          simpa [Prod.ext_iff] using hw
        obtain ⟨c₀, hw₀⟩ := ih hys
        refine ⟨cellCost g s'.coords + c₀, ?_⟩
        rw [walkPath, ← moveState_congr hlen hhead, hm, Option.some_bind, hw₀]
        simp [ht]

theorem mapM_isSome {α β : Type} (f : α → Option β) :
    ∀ l : List α, (List.mapM f l).isSome ↔ ∀ a ∈ l, (f a).isSome := by
  intro l
  induction l with
  | nil =>
    constructor
    · intro _ a ha
      exact absurd ha (List.not_mem_nil a)
    · intro _
      rfl
  | cons a l ih =>
    rw [List.mapM_cons]
    constructor
    · intro h x hx
      rcases List.mem_cons.mp hx with rfl | hx
      · cases hfa : f x
        · rw [hfa] at h
          simp at h
        · simp
      · cases hfa : f a
        · rw [hfa] at h
          simp at h
        · rw [hfa] at h
          cases hml : List.mapM f l
          · rw [hml] at h
            simp at h
          · exact (ih.mp (by rw [hml]; rfl)) x hx
    · intro h
      obtain ⟨b, hb⟩ := Option.isSome_iff_exists.mp (h a (List.mem_cons_self a l))
      obtain ⟨bs, hbs⟩ := Option.isSome_iff_exists.mp
        (ih.mpr fun x hx => h x (List.mem_cons_of_mem a hx))
      rw [hb, hbs]
      rfl

theorem charDigit_isSome (c : Char) : (charDigit c).isSome ↔ c.isDigit := by
  unfold charDigit
  split_ifs with h <;> simp [h]

theorem try_move_start_north (g : Grid) :
    try_move g (0, 0) Direction.North = none := rfl

theorem try_move_start_west (g : Grid) :
    try_move g (0, 0) Direction.West = none := rfl

/-- Every automaton-legal goal cost is the cost of an unconstrained walk to
the bottom-right cell. -/
theorem goal_to_spec {g : Grid} {mn mx : ℕ} {c : ℕ}
    (hc : c ∈ goalCosts g mn mx) : c ∈ specShortestCosts g := by
  obtain ⟨π, t, hw, hco, -⟩ := hc
  exact ⟨π, by rw [← hco]; exact walkPath_to_specWalk hw⟩

/-- With `min_run = 0` and `max_run` at least the larger grid dimension,
every unconstrained walk cost is matched or beaten by an automaton-legal
goal cost: first remove reversals, then run the non-reversing walk through
the automaton. -/
theorem spec_to_goal {g : Grid} {mx : ℕ}
    (h1 : g.length ≠ 0) (h2 : (g.headD []).length ≠ 0)
    (hmx1 : g.length - 1 ≤ mx) (hmx2 : (g.headD []).length - 1 ≤ mx)
    {c : ℕ} (hc : c ∈ specShortestCosts g) :
    ∃ c' ≤ c, c' ∈ goalCosts g 0 mx := by
  obtain ⟨π, hπ⟩ := hc
  obtain ⟨π', c', hle, hch, hw'⟩ :=
    exists_chain_walk (Nat.pos_of_ne_zero h1) (Nat.pos_of_ne_zero h2) π c hπ
  have hch2 : List.Chain' (fun a b => b ≠ a.opposite) (Direction.East :: π') := by
    cases π' with
    | nil => simp
    | cons d ds =>
      rw [List.chain'_cons]
      refine ⟨fun hdW => ?_, hch⟩
      rw [show Direction.East.opposite = Direction.West from rfl] at hdW
      subst hdW
      rw [show specWalk g (0, 0) (Direction.West :: ds) =
        (try_move g (0, 0) Direction.West).bind fun q =>
          (specWalk g q ds).map fun tc => (tc.1, cellCost g q + tc.2) from rfl,
        try_move_start_west] at hw'
      exact absurd hw' (by simp)
  obtain ⟨t', hwp, hco⟩ := chain_walk_legal hmx1 hmx2 π' startState
    (g.length - 1, (g.headD []).length - 1) c'
    (Nat.pos_of_ne_zero h1) (Nat.pos_of_ne_zero h2) (Nat.zero_le _) hch2 hw'
  exact ⟨c', hle, π', t', hwp, hco, Nat.zero_le _⟩

/-- 1×N corridor, feasible parameters: the search returns the sum of all
cell costs except the start cell's. -/
theorem heat_lossH_found {mn mx : ℕ} {row : Row} (hN : row ≠ [])
    (hmn : mn ≤ row.length - 1) (hmx : row.length - 1 ≤ mx) :
    heat_loss [row] mn mx = .found (row.drop 1).sum := by
  have h2 : (List.headD [row] []).length ≠ 0 := by
    simp only [List.headD_cons]
    exact fun h => hN (List.length_eq_zero.mp h)
  have hset := goalCostsH_found hN hmn hmx
  obtain ⟨c, hc, hl⟩ := @heat_loss_found [row] mn mx (by simp) h2
    (by rw [hset]; exact ⟨_, rfl⟩)
  rw [hset] at hl
  obtain rfl : c = (row.drop 1).sum := hl.1
  exact hc

/-- 1×N corridor, infeasible parameters: the search panics on frontier
exhaustion. -/
theorem heat_lossH_panicked {mn mx : ℕ} {row : Row} (hN : row ≠ [])
    (h : mx < row.length - 1 ∨ row.length - 1 < mn) :
    heat_loss [row] mn mx = .panicked := by
  have h2 : (List.headD [row] []).length ≠ 0 := by
    simp only [List.headD_cons]
    exact fun hz => hN (List.length_eq_zero.mp hz)
  exact heat_loss_panicked (by simp) h2 (goalCostsH_empty h)

/-- N×1 corridor, feasible parameters. -/
theorem heat_lossV_found {mn mx c0 : ℕ} {cs : List ℕ}
    (hmn : mn ≤ cs.length) (hmx : cs.length ≤ max mx 1) :
    heat_loss ((c0 :: cs).map fun v => [v]) mn mx = .found cs.sum := by
  have hset := @goalCostsV_found mn mx c0 cs hmn hmx
  obtain ⟨c, hc, hl⟩ := @heat_loss_found ((c0 :: cs).map fun v => [v]) mn mx
    (by simp) (by simp) (by rw [hset]; exact ⟨_, rfl⟩)
  rw [hset] at hl
  obtain rfl : c = cs.sum := hl.1
  exact hc

/-- N×1 corridor, infeasible parameters. -/
theorem heat_lossV_panicked {mn mx c0 : ℕ} {cs : List ℕ}
    (h : max mx 1 < cs.length ∨ cs.length < mn) :
    heat_loss ((c0 :: cs).map fun v => [v]) mn mx = .panicked :=
  heat_loss_panicked (by simp) (by simp) (goalCostsV_empty h)

/-- A concrete fully-evaluated run used by several witnesses below. -/
theorem heat_loss_ex1 : heat_loss [[1, 2]] 0 3 = SearchResult.found 2 := by
  have h := @heat_lossH_found 0 3 [1, 2] (by decide) (by decide) (by decide)
  simpa using h

/-! ### The claims -/

/-- Claim C1: for every non-empty rectangular grid and `min_run ≤ max_run`
such that at least one automaton-legal path from `(0,0)` to the
bottom-right cell ends with `run_length ≥ min_run`, `heat_loss` returns
the minimum over all such legal paths of the sum of the costs of the cells
entered. -/
theorem day17_c1 {g : Grid} {mn mx : ℕ} (hrect : Rectangular g)
    (h1 : g.length ≠ 0) (h2 : (g.headD []).length ≠ 0) (hmn : mn ≤ mx)
    (hne : (goalCosts g mn mx).Nonempty) :
    ∃ c, heat_loss g mn mx = .found c ∧ IsLeast (goalCosts g mn mx) c :=
  heat_loss_found h1 h2 hne

/-- Witness for C1 on the 1×2 grid `[[1, 2]]` with `min_run = 0`,
`max_run = 3`. -/
theorem day17_c1_witness :
    Rectangular [[1, 2]] ∧ List.length [[1, 2]] ≠ 0 ∧
      (List.headD [[1, 2]] []).length ≠ 0 ∧ (0 : ℕ) ≤ 3 ∧
      (goalCosts [[1, 2]] 0 3).Nonempty ∧
      ∃ c, heat_loss [[1, 2]] 0 3 = .found c ∧
        IsLeast (goalCosts [[1, 2]] 0 3) c := by
  have hne : (goalCosts [[1, 2]] 0 3).Nonempty :=
    ⟨2, ⟨[Direction.East], ⟨(0, 1), .East, 1⟩, by decide, by decide⟩⟩
  exact ⟨by decide, by decide, by decide, by decide, hne,
    day17_c1 (by decide) (by decide) (by decide) (by decide) hne⟩

/-- Claim C2, corrected: when the frontier is exhausted without a popped
goal state the source executes `unreachable!()`, i.e. it panics; it does
not return a typed `Unreachable` failure (no such variant exists in the
code — the return type is a plain `u32`). -/
theorem day17_c2 {g : Grid} {mn mx : ℕ} (h1 : g.length ≠ 0)
    (h2 : (g.headD []).length ≠ 0) (hempty : goalCosts g mn mx = ∅) :
    heat_loss g mn mx = .panicked :=
  heat_loss_panicked h1 h2 hempty

/-- Witness for C2 on the 1×1 grid with `min_run = 1` (the spec's own
unreachable scenario: start and goal coincide but the start state has run
length 0). -/
theorem day17_c2_witness :
    List.length [[5]] ≠ 0 ∧ (List.headD [[5]] []).length ≠ 0 ∧
      goalCosts [[5]] 1 3 = ∅ ∧ heat_loss [[5]] 1 3 = SearchResult.panicked := by
  have he : goalCosts [[5]] 1 3 = ∅ := @goalCostsH_empty 1 3 [5] (Or.inr (by decide))
  exact ⟨by decide, by decide, he, day17_c2 (by decide) (by decide) he⟩

/-- Counterexample to C2 as stated: on the spec's own unreachable scenario
the engine panics (the `unreachable!()` macro aborts the process); the
outcome is a panic, not a typed failure the caller could distinguish. -/
theorem day17_c2_counterexample :
    heat_loss [[5]] 1 3 = SearchResult.panicked :=
  heat_lossH_panicked (by decide) (Or.inr (by decide))

/-- Claim C3, corrected: construction performs no shape validation at all.
Parsing fails exactly when some character of some line is not a decimal
digit; rows of unequal length and the empty grid are accepted. -/
theorem day17_c3 (ls : List String) :
    (grid ls).isSome ↔ ∀ s ∈ ls, ∀ ch ∈ s.toList, ch.isDigit := by
  unfold grid
  rw [mapM_isSome]
  constructor
  · intro h s hs
    have hr := h s hs
    unfold row at hr
    rw [mapM_isSome] at hr
    intro ch hch
    exact (charDigit_isSome ch).mp (hr ch hch)
  · intro h s hs
    unfold row
    rw [mapM_isSome]
    exact fun ch hch => (charDigit_isSome ch).mpr (h s hs ch hch)

/-- Counterexample to C3 as stated: a ragged two-line input and the empty
input are both accepted by `grid`; no `MalformedGrid` rejection exists. -/
theorem day17_c3_counterexample :
    grid ["1", "23"] = some [[1], [2, 3]] ∧
      grid ([] : List String) = some [] := by
  constructor <;> rfl

/-- Claim C4, corrected: from the synthetic start state every direction
that stays on the grid is legal and produces run length 1 — provided
`max_run ≥ 1`.  (With `max_run = 0` the initial direction East is illegal
even when in-grid, because the start state's direction is initialized to
East and continuing straight requires `run_length < max_run`.) -/
theorem day17_c4 {g : Grid} {mn mx : ℕ} (hmx : 1 ≤ mx) (d : Direction)
    (q : Coords) (htm : try_move g (0, 0) d = some q) :
    moveState g mn mx startState d = some ⟨q, d, 1⟩ := by
  cases d with
  | North =>
    rw [try_move_start_north] at htm
    exact Option.noConfusion htm
  | West =>
    rw [try_move_start_west] at htm
    exact Option.noConfusion htm
  | East =>
    have hc : (Direction.East, (1 : ℕ)) ∈ candidates mn mx startState :=
      mem_candidates.mpr (.inr ⟨hmx, rfl, rfl⟩)
    exact moveState_of_candidate hc htm
  | South =>
    have hc : (Direction.South, (1 : ℕ)) ∈ candidates mn mx startState :=
      mem_candidates.mpr (.inl ⟨.inl rfl, .inr rfl, rfl⟩)
    exact moveState_of_candidate hc htm

/-- Witness for C4: East from the start of a 1×2 grid with `max_run = 1`. -/
theorem day17_c4_witness :
    (1 : ℕ) ≤ 1 ∧ try_move [[1, 1]] (0, 0) Direction.East = some (0, 1) ∧
      moveState [[1, 1]] 0 1 startState Direction.East =
        some ⟨(0, 1), Direction.East, 1⟩ :=
  ⟨by decide, by decide, day17_c4 (by decide) Direction.East (0, 1) (by decide)⟩

/-- Counterexample to C4 as stated: with `max_run = 0` the automaton
rejects East from the start state although the move stays on the grid. -/
theorem day17_c4_counterexample :
    try_move [[1, 1]] (0, 0) Direction.East = some (0, 1) ∧
      moveState [[1, 1]] 0 0 startState Direction.East = none := by
  constructor <;> decide

/-- Claim C5, corrected: straight corridors.  Horizontally (1×N), the
result is the sum of the non-start cells when `min_run ≤ N-1 ≤ max_run`,
and the `unreachable!()` panic when `N-1 > max_run` or `N-1 < min_run`
(the spec's version omitted the `min_run ≤ N-1` requirement).  Vertically
(N×1), the feasibility threshold is `N-1 ≤ max max_run 1` rather than
`N-1 ≤ max_run`: the single South step of a 2×1 corridor is a turn out of
the synthetic East start state, so it is legal even when `max_run = 0`. -/
theorem day17_c5 :
    (∀ (mn mx : ℕ) (r : Row), r ≠ [] → mn ≤ r.length - 1 →
        r.length - 1 ≤ mx → heat_loss [r] mn mx = .found (r.drop 1).sum) ∧
    (∀ (mn mx : ℕ) (r : Row), r ≠ [] →
        mx < r.length - 1 ∨ r.length - 1 < mn →
        heat_loss [r] mn mx = .panicked) ∧
    (∀ (mn mx c0 : ℕ) (cs : List ℕ), mn ≤ cs.length → cs.length ≤ max mx 1 →
        heat_loss ((c0 :: cs).map fun v => [v]) mn mx = .found cs.sum) ∧
    (∀ (mn mx c0 : ℕ) (cs : List ℕ), max mx 1 < cs.length ∨ cs.length < mn →
        heat_loss ((c0 :: cs).map fun v => [v]) mn mx = .panicked) :=
  ⟨fun _ _ _ hN hmn hmx => heat_lossH_found hN hmn hmx,
   fun _ _ _ hN h => heat_lossH_panicked hN h,
   fun _ _ _ _ hmn hmx => heat_lossV_found hmn hmx,
   fun _ _ _ _ h => heat_lossV_panicked h⟩

/-- Witness for C5: all four corridor clauses at concrete inputs. -/
theorem day17_c5_witness :
    heat_loss [[1, 2]] 0 3 = SearchResult.found 2 ∧
      heat_loss [[5]] 1 3 = SearchResult.panicked ∧
      heat_loss ((7 :: [4]).map fun v => [v]) 0 3 = SearchResult.found 4 ∧
      heat_loss ((7 :: [4, 5]).map fun v => [v]) 0 1 = SearchResult.panicked := by
  refine ⟨?_, ?_, ?_, ?_⟩
  · exact day17_c5.1 0 3 [1, 2] (by decide) (by decide) (by decide)
  · exact day17_c5.2.1 1 3 [5] (by decide) (Or.inr (by decide))
  · exact day17_c5.2.2.1 0 3 7 [4] (by decide) (by decide)
  · exact day17_c5.2.2.2 0 1 7 [4, 5] (Or.inl (by decide))

/-- Counterexample to C5 as stated: on the 1×2 corridor `[[1, 1]]` with
`min_run = max_run = 5` the spec's version predicts the cost 1 (since
`N-1 = 1 ≤ max_run`), but the goal requires a final run of at least 5 and
the engine panics on frontier exhaustion. -/
theorem day17_c5_counterexample :
    heat_loss [[1, 1]] 5 5 = SearchResult.panicked ∧
      SearchResult.panicked ≠ SearchResult.found 1 :=
  ⟨heat_lossH_panicked (by decide) (Or.inr (by decide)), by decide⟩

/-- Claim C6: with `min_run = 0` and `max_run` at least as large as any
possible straight run (both grid dimensions minus one), `heat_loss`
returns the least cost of an unconstrained coordinate walk from `(0,0)`
to the bottom-right cell — plain Dijkstra ignoring direction and
run length. -/
theorem day17_c6 {g : Grid} {mx : ℕ} (hrect : Rectangular g)
    (h1 : g.length ≠ 0) (h2 : (g.headD []).length ≠ 0)
    (hmx1 : g.length - 1 ≤ mx) (hmx2 : (g.headD []).length - 1 ≤ mx) :
    ∃ c, heat_loss g 0 mx = .found c ∧ IsLeast (specShortestCosts g) c := by
  obtain ⟨π₀, c₀, hw₀⟩ := spec_target_exists h1 h2
  obtain ⟨c₁, hc₁le, hc₁⟩ := spec_to_goal h1 h2 hmx1 hmx2 ⟨π₀, hw₀⟩
  obtain ⟨c, hfound, hleast⟩ := heat_loss_found h1 h2 ⟨c₁, hc₁⟩
  refine ⟨c, hfound, goal_to_spec hleast.1, fun c'' hc'' => ?_⟩
  obtain ⟨c', hle, hmem⟩ := spec_to_goal h1 h2 hmx1 hmx2 hc''
  exact (hleast.2 hmem).trans hle

/-- Witness for C6 on the 2×2 grid `[[1, 2], [3, 4]]` with `max_run = 3`. -/
theorem day17_c6_witness :
    Rectangular [[1, 2], [3, 4]] ∧ List.length [[1, 2], [3, 4]] ≠ 0 ∧
      (List.headD [[1, 2], [3, 4]] []).length ≠ 0 ∧
      List.length [[1, 2], [3, 4]] - 1 ≤ 3 ∧
      (List.headD [[1, 2], [3, 4]] []).length - 1 ≤ 3 ∧
      ∃ c, heat_loss [[1, 2], [3, 4]] 0 3 = .found c ∧
        IsLeast (specShortestCosts [[1, 2], [3, 4]]) c :=
  ⟨by decide, by decide, by decide, by decide, by decide,
    day17_c6 (by decide) (by decide) (by decide) (by decide) (by decide)⟩

/-- Claim C7: weak monotonicity — if the engine returns a cost and a
single cell's cost is raised, the cost returned on the modified grid is at
least the original one (and the engine still returns a cost). -/
theorem day17_c7 {g : Grid} {mn mx i j v c : ℕ} (hrect : Rectangular g)
    (hfound : heat_loss g mn mx = .found c) (hv : cellCost g (i, j) ≤ v) :
    ∃ c', heat_loss (updateCell g i j v) mn mx = .found c' ∧ c ≤ c' := by
  by_cases hdeg : g.length = 0 ∨ (g.headD []).length = 0
  · rw [heat_loss_degenerate hdeg] at hfound
    exact absurd hfound (by simp)
  push_neg at hdeg
  obtain ⟨h1, h2⟩ := hdeg
  have hlen : (updateCell g i j v).length = g.length := updateCell_length g i j v
  have hhead : ((updateCell g i j v).headD []).length = (g.headD []).length :=
    updateCell_headD g i j v
  have hcell : ∀ p, cellCost g p ≤ cellCost (updateCell g i j v) p :=
    cellCost_updateCell_le hv
  rcases run_result (heat_loss_runs mn mx h1 h2) with ⟨-, hp⟩ | ⟨c₂, hc₂, hl⟩
  · rw [hfound] at hp
    exact absurd hp (by simp)
  rw [hfound] at hc₂
  obtain rfl : c = c₂ := SearchResult.found.inj hc₂
  obtain ⟨π, t, hw, hg⟩ := hl.1
  obtain ⟨cg, hw', hle'⟩ := walkPath_dominate hlen hhead hcell hw
  obtain ⟨c', hfound', hleast'⟩ := heat_loss_found
    (by rw [hlen]; exact h1) (by rw [hhead]; exact h2)
    ⟨cg, π, t, hw', (isGoal_congr hlen hhead t).mpr hg⟩
  refine ⟨c', hfound', ?_⟩
  obtain ⟨π', t', hw'', hg''⟩ := hleast'.1
  obtain ⟨c₀, hw₀⟩ := walkPath_shape hlen hhead hw''
  obtain ⟨c₁, hw₁, hle₁⟩ := walkPath_dominate hlen hhead hcell hw₀
  rw [hw''] at hw₁
  have hc1 : c' = c₁ := by simpa using hw₁
  have hmem₀ : c₀ ∈ goalCosts g mn mx :=
    ⟨π', t', hw₀, (isGoal_congr hlen hhead t').mp hg''⟩
  have hcle := hl.2 hmem₀
  omega

/-- Witness for C7: raising the goal cell of `[[1, 2]]` from 2 to 9. -/
theorem day17_c7_witness :
    Rectangular [[1, 2]] ∧ heat_loss [[1, 2]] 0 3 = SearchResult.found 2 ∧
      cellCost [[1, 2]] (0, 1) ≤ 9 ∧
      ∃ c', heat_loss (updateCell [[1, 2]] 0 1 9) 0 3 = .found c' ∧ 2 ≤ c' :=
  ⟨by decide, heat_loss_ex1, by decide,
    day17_c7 (by decide) heat_loss_ex1 (by decide)⟩

/-- Claim C8: throughout a run, the best-cost table only grows and
improves: an entry, once present, stays present with a value never above
the old one, and any change to an entry's value is a strict decrease. -/
theorem day17_c8 {g : Grid} {mn mx : ℕ} {ls ls' : LoopState}
    (h : Relation.ReflTransGen (Step g mn mx) ls ls') :
    (∀ s v, lookup ls.2 s = some v →
        ∃ v', lookup ls'.2 s = some v' ∧ v' ≤ v) ∧
      ∀ s v v', lookup ls.2 s = some v → lookup ls'.2 s = some v' →
        v' ≠ v → v' < v := by
  have key : ∀ s v, lookup ls.2 s = some v →
      ∃ v', lookup ls'.2 s = some v' ∧ v' ≤ v := by
    induction h with
    | refl => exact fun s v hv => ⟨v, hv, le_rfl⟩
    | tail hab hbc ih =>
      intro s v hv
      obtain ⟨v₁, hv₁, hle₁⟩ := ih s v hv
      cases hbc with
      | stale hpop hng hlk hlt => exact ⟨v₁, hv₁, hle₁⟩
      | @relax heap best e rest b hpop hng hlk hlt =>
        obtain ⟨v₂, hle₂, hv₂⟩ :=
          foldl_relax_lookup_mono (candidates mn mx e.2) (rest, best) hv₁
        exact ⟨v₂, hv₂, hle₂.trans hle₁⟩
  refine ⟨key, fun s v v' hv hv' hne => ?_⟩
  obtain ⟨v₂, hv₂, hle⟩ := key s v hv
  rw [hv'] at hv₂
  obtain rfl := Option.some.inj hv₂
  omega

/-- Witness for C8 at the initial loop state (zero steps taken). -/
theorem day17_c8_witness :
    ∃ v', lookup initLS.2 startState = some v' ∧ v' ≤ 0 :=
  (@day17_c8 [[5]] 0 3 initLS initLS Relation.ReflTransGen.refl).1
    startState 0 (by decide)

/-- Claim C9: determinism — any two complete runs of the search loop from
the initial state, each free to pop any minimal-cost frontier entry
(arbitrary tie-breaking among equal-cost entries), produce the same
result. -/
theorem day17_c9 {g : Grid} {mn mx : ℕ} {r₁ r₂ : SearchResult}
    (h₁ : Run g mn mx initLS r₁) (h₂ : Run g mn mx initLS r₂) : r₁ = r₂ :=
  run_det h₁ h₂

/-- Witness for C9: two (identical) runs on the 1×1 grid with
`min_run = 0`, where the start state is popped as a goal at cost 0. -/
theorem day17_c9_witness :
    Run [[5]] 0 3 initLS (SearchResult.found 0) ∧
      SearchResult.found 0 = SearchResult.found 0 := by
  have hpop : PopOk [(0, startState)] (0, startState) [] :=
    ⟨by decide, by decide, by decide⟩
  have hrun : Run [[5]] 0 3 initLS (SearchResult.found 0) :=
    ⟨initLS, Relation.ReflTransGen.refl, Ends.goal hpop (by decide)⟩
  exact ⟨hrun, day17_c9 hrun hrun⟩

/-- Claim C10: every frontier entry always has a best-table entry (bounded
by the entry's cost), so the `best.get(&state).unwrap()` on a popped
non-goal state never fails — `heat_loss` never ends in the unwrap panic. -/
theorem day17_c10 :
    (∀ (g : Grid) (mn mx : ℕ) (ls : LoopState),
        Relation.ReflTransGen (Step g mn mx) initLS ls →
        ∀ e ∈ ls.1, ∃ v, lookup ls.2 e.2 = some v ∧ v ≤ e.1) ∧
      ∀ (g : Grid) (mn mx : ℕ), heat_loss g mn mx ≠ SearchResult.unwrapPanic := by
  constructor
  · intro g mn mx ls hrtg e he
    obtain ⟨D, inv⟩ := inv_rtg hrtg ∅ (inv_init g mn mx)
    exact (inv.entries e he).2
  · intro g mn mx
    by_cases hdeg : g.length = 0 ∨ (g.headD []).length = 0
    · rw [heat_loss_degenerate hdeg]
      simp
    · push_neg at hdeg
      rcases run_result (heat_loss_runs mn mx hdeg.1 hdeg.2) with ⟨-, hp⟩ | ⟨c, hc, -⟩
      · rw [hp]
        simp
      · rw [hc]
        simp

/-- Witness for C10 at the initial loop state and a concrete grid. -/
theorem day17_c10_witness :
    (∃ v, lookup initLS.2 (0, startState).2 = some v ∧ v ≤ (0, startState).1) ∧
      heat_loss [[5]] 0 3 ≠ SearchResult.unwrapPanic :=
  ⟨day17_c10.1 [[5]] 0 3 initLS Relation.ReflTransGen.refl (0, startState)
      (by decide),
    day17_c10.2 [[5]] 0 3⟩

end Day17
